import Mathlib

/-!
A verification development for the `dyndis` multiple-dispatch library.

The definitions below are a shallow embedding of the Python sources under
`src/dyndis/`.  Python classes become Lean structures, stateful methods
become functions that return the updated state, and Python's dynamic class
hierarchy is abstracted by a type `C` of classes together with a boolean
subclass test `issub : C → C → Bool` (`issub a b` models
`issubclass(a, b)`).  `issubclass` is reflexive and transitive for real
Python classes; theorems state whichever of those facts they use as
explicit hypotheses.

Each claim theorem carries a doc comment naming the claim it settles.
-/

set_option autoImplicit false

universe u v

variable {C : Type u} [DecidableEq C] {T : Type u}

/-! ## Python runtime values

Candidate bodies return Python objects.  Dispatch only ever inspects two
things about such an object: whether it is the `NotImplemented` sentinel
(by identity) and whether it is a `RawReturnValue` wrapper.  All other
objects are represented as opaque `obj n` atoms.  The fresh `EMPTY`
sentinel used internally by `MultiDispatch.get`/`__call__` is modelled by
`Option`: no candidate body can ever be identical to a freshly created
`object()`, so `none` faithfully stands for "`get` exhausted all
candidates and returned the sentinel default".
-/

inductive PyVal : Type where
  | notImplemented : PyVal
  | raw (inner : PyVal) : PyVal
  | obj (n : Nat) : PyVal
deriving DecidableEq, Repr

namespace RawReturnValue

/-- `dyndis/util.py`, `RawReturnValue.unwrap`: if `x` is a `RawReturnValue`,
return its inner value, otherwise return `x` unchanged. -/
def unwrap : PyVal → PyVal
  | .raw x => x
  | x => x

end RawReturnValue

/-! ## `dyndis/util.py`: `similar` -/

/-- Loop body of `dyndis/util.py`, `similar`; `ret` is the running value
(initially `0`). -/
def similarGo (ret : Int) : List (Option Int) → Option Int
  | [] => some ret
  | none :: _ => none
  | some i :: rest =>
    if ret = 0 then similarGo i rest
    else if i = 0 then similarGo ret rest
    else if ret ≠ i then none
    else similarGo ret rest

/-- `dyndis/util.py`, `similar`: check that all values in the iterable are
equal, with `0` being an "any" value; `none` (Python `None`) poisons the
result. -/
def similar (xs : List (Option Int)) : Option Int :=
  similarGo 0 xs

/-! ## Type annotations

`dyndis` compares and matches three kinds of stored per-position
constraints: concrete classes, `typing.Any`, and `typing.TypeVar`s (with a
constraint list or a bound; CPython forbids having both, and the code
checks `__bound__` first, then `__constraints__`).  The numeric `id`
distinguishes type-variable objects; it plays no role in comparisons but
identifies a variable in a binding map during matching. -/

inductive Hint (C : Type u) : Type u where
  | cls (c : C) : Hint C
  | any : Hint C
  | tvar (id : Nat) (constraints : List C) (bound : Option C) : Hint C
deriving DecidableEq, Repr

namespace Hint

def rank : Hint C → Nat
  | .tvar _ _ _ => 1
  | _ => 0

end Hint

/-- Payload of `dyndis/exceptions.py`, `AmbiguousBindingError(typevar,
subclass, unrelated_classes)`. -/
structure AmbBind (C : Type u) : Type u where
  tvConstraints : List C
  subclass : C
  unrelated : List C
deriving DecidableEq, Repr

/-! ## `dyndis/util.py`: `constrain_type` -/

/-- `dyndis/util.py`, `constrain_type(cls, scls)`: the lowest type that
`cls` can be up-cast to and that `scls` accepts as constraint, `none` if
no such type exists, or an `AmbiguousBindingError` when a constrained
type variable admits no unique minimal candidate.  (The `lru_cache`
decorator only memoizes; it does not change the value.) -/
def constrain_type (issub : C → C → Bool) (cls : C) : Hint C → Except (AmbBind C) (Option C)
  | .any => .ok (some cls)
  | .tvar _ constraints bound =>
    if constraints ≠ [] then
      let candidates := constraints.filter (fun c => issub cls c)
      if candidates = [] then .ok none
      else
        let minimal := candidates.filter (fun cand => candidates.all (fun c => issub cand c))
        match minimal with
        | [m] => .ok (some m)
        | _ => .error ⟨constraints, cls, minimal⟩
    else
      match bound with
      | some b =>
        -- `constrain_type(cls, scls.__bound__)` recurses with a class
        -- argument and lands in the final `issubclass` line, shown here
        -- unfolded by one step.
        .ok (if issub cls b then some cls else none)
      | none => .ok (some cls)
  | .cls s => .ok (if issub cls s then some cls else none)

/-! ## `dyndis/util.py`: `cmp_type_hint`

`cmp_type_hint(r, l)` returns `0` when identical, `-1` when `r <= l`, `1`
when `l <= r` and `None` when incomparable.  The Python function recurses
through at most one level of `TypeVar` indirection; the recursion is
stratified here into the branch where both sides are concrete classes
(`cmp_types`), the branch where the right side is a concrete class
(`cmp_cls_hint`), and the branch where the left side is
(`cmp_hint_cls`).  `obj` is the class `object`, the top of the Python
class hierarchy, substituted for a fully unconstrained `TypeVar`. -/

/-- Both arguments are concrete classes (final `else` branch of
`cmp_type_hint`). -/
def cmp_types (issub : C → C → Bool) (r l : C) : Option Int :=
  if r = l then some 0
  else if issub r l then some (-1)
  else if issub l r then some 1
  else none

/-- `cmp_type_hint(r, l)` where `l` is a concrete class. -/
def cmp_hint_cls (issub : C → C → Bool) (obj : C) : Hint C → C → Option Int
  | .cls rc, l => cmp_types issub rc l
  | .any, _ => some 1
  | .tvar _ constraints bound, l =>
    match bound with
    | some b => cmp_types issub b l
    | none =>
      if constraints ≠ [] then similar (constraints.map (fun c => cmp_types issub c l))
      else cmp_types issub obj l

/-- `cmp_type_hint(r, l)` where `r` is a concrete class: when `l` is not a
class the code swaps the arguments and negates (`i_cth and -i_cth`, which
maps `None` to `None` and otherwise negates, `-0` being `0`). -/
def cmp_cls_hint (issub : C → C → Bool) (obj : C) (r : C) : Hint C → Option Int
  | .cls lc => cmp_types issub r lc
  | l => (cmp_hint_cls issub obj l r).map (fun i => -i)

/-- `dyndis/util.py`, `cmp_type_hint(r, l)` over all hint shapes. -/
def cmp_type_hint (issub : C → C → Bool) (obj : C) : Hint C → Hint C → Option Int
  | .cls rc, l => cmp_cls_hint issub obj rc l
  | .any, l => some (if l = .any then 0 else 1)
  | .tvar _ constraints bound, l =>
    match bound with
    | some b => cmp_cls_hint issub obj b l
    | none =>
      if constraints ≠ [] then similar (constraints.map (fun c => cmp_cls_hint issub obj c l))
      else cmp_cls_hint issub obj obj l

/-! ## `dyndis/candidate.py`: `cmp_key` -/

/-- Loop body of `dyndis/candidate.py`, `cmp_key`; `ret` is the running
direction (initially `0`). -/
def cmp_key_go (issub : C → C → Bool) (obj : C) (ret : Int) : List (Hint C × Hint C) → Int
  | [] => ret
  | (r, l) :: rest =>
    match cmp_type_hint issub obj r l with
    | none => 0
    | some i =>
      if i = 0 then cmp_key_go issub obj ret rest
      else if ret = 0 then cmp_key_go issub obj i rest
      else if ret ≠ i then 0
      else cmp_key_go issub obj ret rest

/-- `dyndis/candidate.py`, `cmp_key(rhs, lhs)`: `-1` if `rhs` is a sub-key
of `lhs` (position-wise at least as specific, somewhere strictly), `1` for
the mirror image, `0` if the two keys cannot be compared. -/
def cmp_key (issub : C → C → Bool) (obj : C) (rhs lhs : List (Hint C)) : Int :=
  cmp_key_go issub obj 0 (rhs.zip lhs)

/-! ## Association-list helpers

Python `dict`s used by the core (`bindings`, the cache, the `waiting` map
of the layering loop) are modelled as association lists. -/

def alookup {α : Type u} {β : Type v} [DecidableEq α] (m : List (α × β)) (k : α) : Option β :=
  match m with
  | [] => none
  | p :: rest => if p.1 = k then some p.2 else alookup rest k

/-- `d[k] = v`: replace the first entry for `k` in place, or append a new
entry. -/
def astore {α : Type u} {β : Type v} [DecidableEq α] (m : List (α × β)) (k : α) (v : β) :
    List (α × β) :=
  match m with
  | [] => [(k, v)]
  | p :: rest => if p.1 = k then (k, v) :: rest else p :: astore rest k v

/-- `d.pop(k, None)` / `del d[k]`. -/
def aerase {α : Type u} {β : Type v} [DecidableEq α] (m : List (α × β)) (k : α) : List (α × β) :=
  m.filter (fun p => decide (p.1 ≠ k))

/-! ## Candidates -/

/-- `dyndis/candidate.py`, `Candidate`: a constraint tuple `types`, a
priority and an opaque body.  The body is modelled by the Python value it
returns (candidate bodies are treated as pure, which is the determinism
assumption the specification itself makes).  `cid` models Python object
identity for distinct registrations. -/
structure Cand (C : Type u) : Type u where
  cid : Nat
  types : List (Hint C)
  priority : Int
  body : PyVal
deriving DecidableEq, Repr

/-- Result of matching one candidate against a query type tuple:
no match, a match exception, or a successful match with a rank. -/
inductive MatchRes (C : Type u) : Type u where
  | noMatch : MatchRes C
  | exc (e : AmbBind C) : MatchRes C
  | matched (rank : Nat) : MatchRes C
deriving DecidableEq, Repr

def MatchRes.isMatch {C : Type u} : MatchRes C → Bool
  | .matched _ => true
  | _ => false

/-- Modelled from the spec: the method `Candidate.match` that
`CachedSearch.advance` calls is not present under `src/` (only its
callers are).  Following §4.1 of the spec it matches position by
position, left to right, threading one shared bindings map: a concrete
class constraint is a perfect match on the same class and an upcast on a
strict subclass; `Any` always matches as an upcast; an already-bound type
variable matches against its bound class; an unbound one is bound through
`constrain_type` (which is in `src/dyndis/util.py`), whose
`AmbiguousBindingError` aborts the whole match.  The overall rank is the
worst per-position rank, and a successful match is truthy regardless of
rank. -/
def candMatchGo (issub : C → C → Bool) :
    List (Hint C) → List C → List (Nat × C) → Nat → MatchRes C
  | [], [], _, worst => .matched worst
  | h :: hs, q :: qs, bindings, worst =>
    match h with
    | .cls c =>
      if q = c then candMatchGo issub hs qs bindings worst
      else if issub q c then candMatchGo issub hs qs bindings (max worst 1)
      else .noMatch
    | .any => candMatchGo issub hs qs bindings (max worst 1)
    | .tvar tid constraints bound =>
      match alookup bindings tid with
      | some t =>
        if q = t then candMatchGo issub hs qs bindings worst
        else if issub q t then candMatchGo issub hs qs bindings (max worst 1)
        else .noMatch
      | none =>
        match constrain_type issub q (.tvar tid constraints bound) with
        | .error e => .exc e
        | .ok none => .noMatch
        | .ok (some t) =>
          candMatchGo issub hs qs ((tid, t) :: bindings) (if t = q then worst else max worst 1)
  | _, _, _, _ => .noMatch

/-- Match one candidate against a query type tuple with a fresh bindings
map (bindings do not carry across candidates). -/
def candMatch (issub : C → C → Bool) (q : List C) (c : Cand C) : MatchRes C :=
  candMatchGo issub c.types q [] 0

/-! ## `dyndis/multidispatch.py`: `CachedSearch` -/

/-- `CachedSearch`: `layerIter` is the not-yet-consumed suffix of the
topological layer sequence (`none` models `self.layer_iter = None` after
exhaustion) and `sorted` is the accumulated list of already-computed
priority groups. -/
structure CS (C : Type u) : Type u where
  layerIter : Option (List (List (Cand C)))
  sorted : List (List (Cand C))
deriving DecidableEq, Repr

/-- The grouping loop inside `CachedSearch.advance`: matched candidates
are appended to the last group while their priority equals that group's
priority, otherwise a new group is started — i.e. maximal runs of equal
priority in layer order. -/
def groupRuns : List (Cand C) → List (List (Cand C))
  | [] => []
  | [c] => [[c]]
  | c :: c2 :: rest =>
    match groupRuns (c2 :: rest) with
    | g :: gs => if c.priority = c2.priority then (c :: g) :: gs else [c] :: g :: gs
    | [] => [[c]]

/-- The first match exception raised while matching a layer's candidates
in order, if any (`advance` raises at the first exception it sees). -/
def layerFirstExc (issub : C → C → Bool) (q : List C) (layer : List (Cand C)) :
    Option (AmbBind C) :=
  layer.findSome? (fun c =>
    match candMatch issub q c with
    | .exc e => some e
    | _ => none)

/-- The layer's candidates that match the query, in layer order. -/
def matchedOf (issub : C → C → Bool) (q : List C) (layer : List (Cand C)) : List (Cand C) :=
  layer.filter (fun c => (candMatch issub q c).isMatch)

inductive AdvOut (C : Type u) : Type u where
  | stop : AdvOut C
  | batch (groups : List (List (Cand C))) : AdvOut C
deriving DecidableEq, Repr

/-- `CachedSearch.advance`: consume the next layer, group its matching
candidates, extend `sorted`, and yield the groups most-specific-first
(`reversed(ret)`).  On a match exception the layer is pushed back
(`chain([layer], self.layer_iter)`), which restores the cursor exactly to
its pre-call state, and the exception is raised. -/
def CS.advance (issub : C → C → Bool) (q : List C) (cs : CS C) :
    Except (AmbBind C) (CS C × AdvOut C) :=
  match cs.layerIter with
  | none => .ok (cs, .stop)
  | some [] => .ok ({ cs with layerIter := none }, .stop)
  | some (layer :: rest) =>
    match layerFirstExc issub q layer with
    | some e => .error e
    | none =>
      let groups := (groupRuns (matchedOf issub q layer)).reverse
      .ok ({ layerIter := some rest, sorted := cs.sorted ++ groups }, .batch groups)

/-! ## `dyndis/multidispatch.py`: the `get` loop -/

/-- Outcome of walking a sequence of priority groups in
`MultiDispatch.get`: a returned value, an `AmbiguityError`, or
exhaustion. -/
inductive RunStop (C : Type u) : Type u where
  | found (v : PyVal) : RunStop C
  | amb (g : List (Cand C)) : RunStop C
  | exhausted : RunStop C
deriving DecidableEq, Repr

/-- The body of the `for layer in ...` loop of `MultiDispatch.get`
applied to a list of groups: a group of size other than one raises
`AmbiguityError`; otherwise the single member's body is invoked, a
`NotImplemented` result continues the walk and anything else is returned
unwrapped.  Also returns the list of candidates whose bodies were
invoked, in order. -/
def runGroups : List (List (Cand C)) → RunStop C × List (Cand C)
  | [] => (.exhausted, [])
  | g :: rest =>
    match g with
    | [c] =>
      if c.body = .notImplemented then
        let (r, att) := runGroups rest
        (r, c :: att)
      else (.found (RawReturnValue.unwrap c.body), [c])
    | _ => (.amb g, [])

/-- Call-time errors surfaced by a `get` run: `AmbiguityError`, a match
exception raised while matching a candidate, or the `KeyError` that
`CachedSearch.__init__` raises when it subscripts
`owner.candidate_topsets[len(key)]` for an arity with no registered
candidates. -/
inductive DErr (C : Type u) : Type u where
  | amb (g : List (Cand C)) (types : List C) : DErr C
  | matchExc (e : AmbBind C) : DErr C
  | keyError (n : Nat) : DErr C
deriving DecidableEq, Repr

/-- The `while self.layer_iter: yield from self.advance()` phase of
iterating a `CachedSearch`, fused with the `get` loop consuming the
yielded groups, for a present layer iterator.  Returns the final cache
state, the result (`ok none` means all layers were exhausted) and the
candidates attempted. -/
def advLoopGo (issub : C → C → Bool) (q : List C) :
    List (List (Cand C)) → List (List (Cand C)) →
    CS C × Except (DErr C) (Option PyVal) × List (Cand C)
  | [], sorted => (⟨none, sorted⟩, .ok none, [])
  | layer :: rest, sorted =>
    match layerFirstExc issub q layer with
    | some e => (⟨some (layer :: rest), sorted⟩, .error (.matchExc e), [])
    | none =>
      let groups := (groupRuns (matchedOf issub q layer)).reverse
      let sorted2 := sorted ++ groups
      match runGroups groups with
      | (.found v, att) => (⟨some rest, sorted2⟩, .ok (some v), att)
      | (.amb g, att) => (⟨some rest, sorted2⟩, .error (.amb g q), att)
      | (.exhausted, att) =>
        let r := advLoopGo issub q rest sorted2
        (r.1, r.2.1, att ++ r.2.2)

/-- The advancing phase over an optional layer iterator (`none` means the
`while self.layer_iter` guard is already false). -/
def advLoop (issub : C → C → Bool) (q : List C) (sorted : List (List (Cand C))) :
    Option (List (List (Cand C))) → CS C × Except (DErr C) (Option PyVal) × List (Cand C)
  | none => (⟨none, sorted⟩, .ok none, [])
  | some layers => advLoopGo issub q layers sorted

/-- Result of one `MultiDispatch.get` run against one cached search. -/
structure GetOut (C : Type u) : Type u where
  cs : CS C
  res : Except (DErr C) (Option PyVal)
  attempts : List (Cand C)
deriving Repr

/-- `MultiDispatch.get` driving one `CachedSearch`: iterate the search's
already-`sorted` groups first (`yield from self.sorted`), then keep
advancing.  `res = .ok none` models `get` returning its default. -/
def csGet (issub : C → C → Bool) (q : List C) (cs : CS C) : GetOut C :=
  match runGroups cs.sorted with
  | (.found v, att) => ⟨cs, .ok (some v), att⟩
  | (.amb g, att) => ⟨cs, .error (.amb g q), att⟩
  | (.exhausted, att) =>
    let r := advLoop issub q cs.sorted cs.layerIter
    ⟨r.1, r.2.1, att ++ r.2.2⟩

/-! ## `dyndis/topological_set.py`: `TopologicalSet`

The Python structure is a graph of mutually referencing node objects; it
is embedded as an arena: nodes live in a list and refer to one another by
index.  A parent reference is an `Option Nat`, `none` standing for the
distinguished root object.  `MultiDispatch` instantiates the subclass
`TieredTopologicalSet` whose `gt` sets are `SortedSet`s keyed by the
inner value's priority (ascending, insertion-stable for equal keys);
`gt` lists are therefore kept sorted by a key function `pkey`.  The
unordered `lt` sets are kept in a deterministic (discovery) order, which
is one of the iteration orders a Python run can produce. -/

structure TNode (T : Type u) : Type u where
  inner : T
  lt : List (Option Nat)
  gt : List Nat
deriving DecidableEq, Repr

structure TopSet (T : Type u) : Type u where
  nodes : List (TNode T)
  rootGt : List Nat
deriving DecidableEq, Repr

namespace TopSet

def inner? (s : TopSet T) (i : Nat) : Option T :=
  (s.nodes.get? i).map (·.inner)

/-- The `gt` set of a node (`none` = the root). -/
def gtIds (s : TopSet T) : Option Nat → List Nat
  | none => s.rootGt
  | some i => ((s.nodes.get? i).map (·.gt)).getD []

/-- The `lt` set of a node. -/
def ltIds (s : TopSet T) (i : Nat) : List (Option Nat) :=
  ((s.nodes.get? i).map (·.lt)).getD []

/-- The stored elements (`node.inner` for every node). -/
def elems (s : TopSet T) : List T :=
  s.nodes.map (·.inner)

def modifyNode (s : TopSet T) (i : Nat) (f : TNode T → TNode T) : TopSet T :=
  { s with nodes := s.nodes.mapIdx (fun j n => if j = i then f n else n) }

def keyOf (pkey : T → Int) (s : TopSet T) (i : Nat) : Int :=
  ((s.nodes.get? i).map (fun n => pkey n.inner)).getD 0

/-- `SortedSet.add` keyed by `pkey`: insert before the first strictly
greater key (`bisect_right`, stable for equal keys). -/
def sortedInsert (key : Nat → Int) : List Nat → Nat → List Nat
  | [], i => [i]
  | j :: rest, i => if key i < key j then i :: j :: rest else j :: sortedInsert key rest i

def gtAdd (pkey : T → Int) (s : TopSet T) (at_ : Option Nat) (newId : Nat) : TopSet T :=
  match at_ with
  | none => { s with rootGt := sortedInsert (s.keyOf pkey) s.rootGt newId }
  | some j => s.modifyNode j (fun n => { n with gt := sortedInsert (s.keyOf pkey) n.gt newId })

def gtRemove (s : TopSet T) (at_ : Option Nat) (val : Nat) : TopSet T :=
  match at_ with
  | none => { s with rootGt := s.rootGt.erase val }
  | some j => s.modifyNode j (fun n => { n with gt := n.gt.erase val })

/-- Is `pp` a valid node reference (the root always is)?  Python
references are objects and cannot dangle; this guard is a modelling
artifact of the index arena and never fires on states built by `add`. -/
def validRef (s : TopSet T) : Option Nat → Prop
  | none => True
  | some i => i < s.nodes.length

instance (s : TopSet T) (o : Option Nat) : Decidable (validRef s o) := by
  cases o <;> simp [validRef] <;> infer_instance

/-- Scan one potential parent's `gt` children, mirroring the inner `for`
loop of `TopologicalSet.add`: children comparing below the new element
become potential parents (`subs`), children above become direct children,
and an equivalent child aborts the insertion (`none`).  The second flag is
Python's `any_subchildren`. -/
def scanChildren (lt le : T → T → Bool) (x : T) (s : TopSet T) :
    List Nat → Option (List Nat × List Nat × Bool)
  | [] => some ([], [], false)
  | k :: ks =>
    match s.inner? k with
    | none => scanChildren lt le x s ks
    | some ki =>
      if lt ki x then
        match scanChildren lt le x s ks with
        | none => none
        | some (subs, dcs, _) => some (k :: subs, dcs, true)
      else if lt x ki then
        match scanChildren lt le x s ks with
        | none => none
        | some (subs, dcs, anySub) => some (subs, k :: dcs, anySub)
      else if le x ki then none
      else
        scanChildren lt le x s ks

/-- The `while potential_parents` search loop of `TopologicalSet.add`.
`queue` is the worklist of potential parents (a Python `set`; processed
here in discovery order with a `seen` list, which yields the same final
node/edge sets), `dps`/`dcs` accumulate direct parents and direct
children.  Result `none` means an equivalent element was found and the
insertion is aborted before any mutation.  `fuel` only bounds the number
of worklist iterations for termination: starting from `walkFuel`, it can
never run out, because the `seen` list lets each node ref enter the
worklist at most once per incoming edge (plus the initial root entry),
so the total number of pops is at most the total edge count plus one. -/
def walkGo (lt le : T → T → Bool) (x : T) (s : TopSet T) :
    Nat → List (Option Nat) → List (Option Nat) → List (Option Nat) → List Nat →
    Option (List (Option Nat) × List Nat)
  | 0, _, _, _, _ => none
  | _ + 1, [], _, dps, dcs => some (dps, dcs)
  | fuel + 1, pp :: rest, seen, dps, dcs =>
    if pp ∈ seen then walkGo lt le x s fuel rest seen dps dcs
    else if validRef s pp then
      match scanChildren lt le x s (s.gtIds pp) with
      | none => none
      | some (subs, newDcs, anySub) =>
        walkGo lt le x s fuel (rest ++ subs.map some) (pp :: seen)
          (if anySub then dps else dps ++ [pp])
          (dcs ++ newDcs.filter (fun d => d ∉ dcs))
    else walkGo lt le x s fuel rest seen dps dcs

/-- An upper bound on the walk's worklist pops: one initial entry plus one
per edge of the structure. -/
def walkFuel (s : TopSet T) : Nat :=
  s.rootGt.length + s.nodes.foldl (fun acc n => acc + n.gt.length) 0 + 2

/-- The post-walk mutation for one direct child `dc` of the freshly
inserted node `nid`: remove the supplanted parent edges
(`dc.lt & node.lt`), re-parent `dc` under `nid`, and add `dc` to `nid`'s
`gt` set. -/
def processDc (pkey : T → Int) (s : TopSet T) (nid : Nat) (dps : List (Option Nat))
    (dc : Nat) : TopSet T :=
  let supplanted := (s.ltIds dc).filter (fun p => p ∈ dps)
  let s1 := supplanted.foldl (fun acc sp => acc.gtRemove sp dc) s
  let s2 := s1.modifyNode dc
    (fun n => { n with lt := (n.lt.filter (fun p => p ∉ supplanted)) ++ [some nid] })
  s2.gtAdd pkey (some nid) dc

/-- `dyndis/topological_set.py`, `TopologicalSet.add`: search for direct
parents and children of `x`; abort returning `false` (set unchanged) when
an equivalent element exists; otherwise wire the new node in between its
direct parents and children. -/
def add (lt le : T → T → Bool) (pkey : T → Int) (s : TopSet T) (x : T) :
    Bool × TopSet T :=
  match walkGo lt le x s (walkFuel s) [none] [] [] [] with
  | none => (false, s)
  | some (dps, dcs) =>
    let nid := s.nodes.length
    let s1 : TopSet T := { nodes := s.nodes ++ [⟨x, dps, []⟩], rootGt := s.rootGt }
    let s2 := dps.foldl (fun acc dp => acc.gtAdd pkey dp nid) s1
    let s3 := dcs.foldl (fun acc dc => processDc pkey acc nid dps dc) s2
    (true, s3)

/-! ### `TopologicalSet.layers` (Kahn-style layering) -/

/-- The `for child in k.gt` loop of `layers`: fetch or initialize the
child's remaining-dependency set, discard `k` from it, and either move the
child to the next layer's worklist or store the updated set. -/
def processChildren (s : TopSet T) (k : Nat) :
    List Nat → List (Nat × List (Option Nat)) → List Nat →
    List Nat × List (Nat × List (Option Nat))
  | [], w, np => (np, w)
  | c :: cs, w, np =>
    let deps := (alookup w c).getD (s.ltIds c)
    let deps2 := deps.erase (some k)
    if deps2 = [] then processChildren s k cs (aerase w c) (np ++ [c])
    else processChildren s k cs (astore w c deps2) np

/-- The `for k in no_prev` loop of `layers`. -/
def processLayer (s : TopSet T) :
    List Nat → List (Nat × List (Option Nat)) → List Nat →
    List Nat × List (Nat × List (Option Nat))
  | [], w, np => (np, w)
  | k :: ks, w, np =>
    let r := processChildren s k (s.gtIds (some k)) w np
    processLayer s ks r.2 r.1

/-- The `while no_prev` loop of `layers`, by node id.  The fuel argument
only bounds the number of rounds; `nodes.length + 1` rounds are enough for
every state `add` builds, since every emitted round is nonempty and no
node is emitted twice. -/
def layersGoIds (s : TopSet T) :
    Nat → List Nat → List (Nat × List (Option Nat)) → List (List Nat)
  | 0, _, _ => []
  | fuel + 1, noPrev, w =>
    if noPrev = [] then []
    else
      let r := processLayer s noPrev w []
      noPrev :: layersGoIds s fuel r.1 r.2

def layersIds (s : TopSet T) : List (List Nat) :=
  layersGoIds s (s.nodes.length + 1) s.rootGt []

/-- `dyndis/topological_set.py`, `TopologicalSet.layers`: each emitted
layer is the `inner` values of a `no_prev` round. -/
def layers (s : TopSet T) : List (List T) :=
  (layersIds s).map (fun L => L.filterMap (s.inner? ·))

end TopSet

/-! ## Candidate ordering

`TopologicalNode.__lt__` compares `self.inner < other.inner`, so the
`TopologicalSet` holding `Candidate`s relies on the candidates' own
comparison operators. -/

/-- Modelled from the spec: the `Candidate` comparison operators used by
`TopologicalSet` are not present under `src/` (only `cmp_key` is).  Per
§4.3 a candidate is strictly below another exactly when its constraint
tuple is a sub-key of the other's, which is `cmp_key == -1`
(`src/dyndis/candidate.py`). -/
def candLt (issub : C → C → Bool) (obj : C) (a b : Cand C) : Bool :=
  a.types.length == b.types.length && cmp_key issub obj a.types b.types == -1

/-- Modelled from the spec: candidate identity is by
(constraint-tuple, priority) (§3, "Identity is by (constraint-tuple,
priority); inserting a duplicate is a registration-time error"), so the
non-strict order additionally identifies candidates with equal types and
priority. -/
def candLe (issub : C → C → Bool) (obj : C) (a b : Cand C) : Bool :=
  candLt issub obj a b || (a.types == b.types && a.priority == b.priority)

/-! ## `dyndis/multidispatch.py`: `MultiDispatch` -/

/-- The mutable state of a `MultiDispatch`: per-arity
`TieredTopologicalSet`s of candidates and the per-arity, per-type-tuple
cache of `CachedSearch`es. -/
structure MDState (C : Type u) : Type u where
  topsets : List (Nat × TopSet (Cand C))
  cache : List (Nat × List (List C × CS C))
deriving DecidableEq, Repr

namespace MDState

def empty {C : Type u} : MDState C := ⟨[], []⟩

def lookupCS (s : MDState C) (n : Nat) (q : List C) : Option (CS C) :=
  match alookup s.cache n with
  | none => none
  | some sub => alookup sub q

/-- `MultiDispatch._clean_cache`: drop the whole per-arity sub-cache for
each size. -/
def cleanCache (s : MDState C) (n : Nat) : MDState C :=
  { s with cache := aerase s.cache n }

/-- `MultiDispatch._add_candidate` (with `clean_cache=True`): insert into
the arity's `TieredTopologicalSet` (created on demand), raise on a
duplicate, then invalidate that arity's cache.  The `ValueError` branch
happens before any mutation, so the returned state is unchanged there. -/
def addCandidate (issub : C → C → Bool) (obj : C) (s : MDState C) (c : Cand C) :
    Except String (MDState C) :=
  let n := c.types.length
  let ts := (alookup s.topsets n).getD ⟨[], []⟩
  let r := ts.add (candLt issub obj) (candLe issub obj) (·.priority) c
  if r.1 then
    .ok (cleanCache { s with topsets := astore s.topsets n r.2 } n)
  else .error "A candidate of equal types and priority exists"

/-- `MultiDispatch._yield_layers` fused with the `get` loop for one query
type tuple: fetch the cached search, constructing a fresh one over the
arity's topological layers when no cached entry exists.
`CachedSearch.__init__` subscripts `owner.candidate_topsets[len(key)]`,
so for an arity with no registered candidates the construction raises
`KeyError` — after `_yield_layers` has already installed an empty
per-arity sub-cache when none (or only an empty one) was present, and
before any search entry is stored; the `GetOut` of that path carries the
error, an empty attempt list and an inert exhausted search that no caller
consults.  On the non-raising paths the search runs and its final state
is stored back in the cache (the Python object is mutated in place;
storing the final state models the same aliasing). -/
def getRun (issub : C → C → Bool) (s : MDState C) (q : List C) : MDState C × GetOut C :=
  let n := q.length
  let sub := (alookup s.cache n).getD []
  match alookup sub q with
  | some cs =>
    let out := csGet issub q cs
    ({ s with cache := astore s.cache n (astore sub q out.cs) }, out)
  | none =>
    match alookup s.topsets n with
    | none =>
      (if sub = [] then { s with cache := astore s.cache n [] } else s,
       ⟨⟨none, []⟩, .error (.keyError n), []⟩)
    | some ts =>
      let out := csGet issub q ⟨some ts.layers, []⟩
      ({ s with cache := astore s.cache n (astore sub q out.cs) }, out)

/-- `MultiDispatch.get` with a caller-supplied default. -/
def getRunD (issub : C → C → Bool) (s : MDState C) (q : List C) (default : PyVal) :
    MDState C × Except (DErr C) PyVal :=
  let r := getRun issub s q
  (r.1, match r.2.res with
    | .ok none => .ok default
    | .ok (some v) => .ok v
    | .error e => .error e)

inductive CallErr (C : Type u) : Type u where
  | dispatch (e : DErr C) : CallErr C
  | noCandidate : CallErr C
deriving DecidableEq, Repr

/-- `MultiDispatch.__call__`: `get` with the fresh `EMPTY` sentinel as
default; exhaustion raises `NoCandidateError`. -/
def callRun (issub : C → C → Bool) (s : MDState C) (q : List C) :
    MDState C × Except (CallErr C) PyVal :=
  let r := getRun issub s q
  (r.1, match r.2.res with
    | .ok none => .error .noCandidate
    | .ok (some v) => .ok v
    | .error e => .error (.dispatch e))

end MDState

/-! ## `dyndis/ambiguity_set.py`: `PotentialConflictSet.__bool__`

Only the truthiness contract of the conflict report is modelled: the
report holds a dict of potential ambiguities and a dict of potential
errors, represented by their key lists.  Python's `bool(x)` protocol
calls `type(x).__bool__(x)` and raises `TypeError` unless the call
returns an actual `bool`. -/

structure PotentialConflictSet : Type where
  ambiguities : List Nat
  errors : List Nat
deriving DecidableEq, Repr

/-- A Python value as returned by a `__bool__` implementation: either an
actual `bool` or some other object (here: one of the report's dicts). -/
inductive DunderBoolRet : Type where
  | boolVal (b : Bool) : DunderBoolRet
  | dictVal (keys : List Nat) : DunderBoolRet
deriving DecidableEq, Repr

/-- `PotentialConflictSet.__bool__`: `return self.errors or self.ambiguities`.
Python's `or` returns its first operand when truthy and its second
otherwise — in both cases a dict, never a `bool`. -/
def pcsDunderBool (p : PotentialConflictSet) : DunderBoolRet :=
  if p.errors ≠ [] then .dictVal p.errors else .dictVal p.ambiguities

inductive PyBoolOutcome : Type where
  | ok (b : Bool) : PyBoolOutcome
  | typeError : PyBoolOutcome
deriving DecidableEq, Repr

/-- `bool(report)` under Python's protocol. -/
def pyBool (p : PotentialConflictSet) : PyBoolOutcome :=
  match pcsDunderBool p with
  | .boolVal b => .ok b
  | .dictVal _ => .typeError

/-! ## Concrete class hierarchies for witnesses and counterexamples

Each enum is a small Python class hierarchy; its `sub` function is the
(reflexive, transitive) `issubclass` relation. -/

/-- A diamond: `q` subclasses both unrelated bases `b1` and `b2`. -/
inductive ClsD : Type where
  | b1 | b2 | q
deriving DecidableEq, Repr, Fintype

def ClsD.sub : ClsD → ClsD → Bool
  | .q, _ => true
  | .b1, .b1 => true
  | .b2, .b2 => true
  | _, _ => false

/-- Three unrelated chains `S1 ⊂ B1`, `S2 ⊂ B2`, `S3 ⊂ B3` and a common
subclass `Q` of all of them. -/
inductive ClsP : Type where
  | B1 | B2 | B3 | S1 | S2 | S3 | Q
deriving DecidableEq, Repr, Fintype

def ClsP.sub : ClsP → ClsP → Bool
  | .Q, _ => true
  | .S1, .S1 => true
  | .S1, .B1 => true
  | .S2, .S2 => true
  | .S2, .B2 => true
  | .S3, .S3 => true
  | .S3, .B3 => true
  | .B1, .B1 => true
  | .B2, .B2 => true
  | .B3, .B3 => true
  | _, _ => false

/-- `cA ⊂ cZ`, `cP ⊂ cN ⊂ cZ`, `cQ ⊂ cN`; `cA` unrelated to `cN`, `cP`,
`cQ`; `cP` and `cQ` unrelated. -/
inductive ClsZ : Type where
  | cZ | cA | cN | cP | cQ
deriving DecidableEq, Repr, Fintype

def ClsZ.sub : ClsZ → ClsZ → Bool
  | .cZ, .cZ => true
  | .cA, .cA => true
  | .cA, .cZ => true
  | .cN, .cN => true
  | .cN, .cZ => true
  | .cP, .cP => true
  | .cP, .cN => true
  | .cP, .cZ => true
  | .cQ, .cQ => true
  | .cQ, .cN => true
  | .cQ, .cZ => true
  | _, _ => false

/-- A chain `m1 ⊂ m2 ⊂ m3` plus an unrelated `mD`. -/
inductive ClsM : Type where
  | m1 | m2 | m3 | mD
deriving DecidableEq, Repr, Fintype

def ClsM.sub : ClsM → ClsM → Bool
  | .m1, .m1 => true
  | .m1, .m2 => true
  | .m1, .m3 => true
  | .m2, .m2 => true
  | .m2, .m3 => true
  | .m3, .m3 => true
  | .mD, .mD => true
  | _, _ => false

/-! ### Concrete states for the dispatch-order scenario (claim C2)

Six single-parameter candidates over `ClsP`, three specific (`S1..S3`,
priorities 0, 1, 2) and three general (`B1..B3`, priorities 0, 1, 0).
The query class `Q` matches all six. -/

def candS1 : Cand ClsP := ⟨0, [.cls .S1], 0, .notImplemented⟩
def candS2 : Cand ClsP := ⟨1, [.cls .S2], 1, .notImplemented⟩
def candS3 : Cand ClsP := ⟨2, [.cls .S3], 2, .notImplemented⟩
def candB1 : Cand ClsP := ⟨3, [.cls .B1], 0, .obj 11⟩
def candB2 : Cand ClsP := ⟨4, [.cls .B2], 1, .notImplemented⟩
def candB3 : Cand ClsP := ⟨5, [.cls .B3], 0, .obj 42⟩

/-- The registry built by registering the six candidates in order. -/
def mdPE : Except String (MDState ClsP) :=
  [candS1, candS2, candS3, candB1, candB2, candB3].foldlM
    (fun acc c => MDState.addCandidate ClsP.sub .B1 acc c) MDState.empty

def mdP : MDState ClsP :=
  match mdPE with
  | .ok s => s
  | .error _ => MDState.empty

/-! ### Concrete states for the cache-invalidation scenario (claims C6, C8)

Candidates over `ClsZ` added in the order `a, z, p` (then `n` for C8):
`a = (cA,)`, `z = (cZ,)`, `p = (cP,)`, `n = (cN,)`.  Because `z` is
reachable only below `a` during later insertions, the edges `p → z` and
`n → z` are never discovered, so `z` and `n` end up in the same emitted
layer although `n` strictly supersedes `z`. -/

def candZa : Cand ClsZ := ⟨0, [.cls .cA], 0, .notImplemented⟩
def candZz : Cand ClsZ := ⟨1, [.cls .cZ], 0, .obj 7⟩
def candZp : Cand ClsZ := ⟨2, [.cls .cP], 0, .notImplemented⟩
def candZn : Cand ClsZ := ⟨3, [.cls .cN], 0, .obj 9⟩

def mdZ3E : Except String (MDState ClsZ) :=
  [candZa, candZz, candZp].foldlM
    (fun acc c => MDState.addCandidate ClsZ.sub .cZ acc c) MDState.empty

def mdZ3 : MDState ClsZ :=
  match mdZ3E with
  | .ok s => s
  | .error _ => MDState.empty

/-- The state after the first call `foo(q)` with `type(q) = cQ`. -/
def mdZ3c : MDState ClsZ := (MDState.callRun ClsZ.sub mdZ3 [.cQ]).1

/-- The state after then registering `n = (cN,)`. -/
def mdZ4E : Except String (MDState ClsZ) :=
  MDState.addCandidate ClsZ.sub .cZ mdZ3c candZn

def mdZ4 : MDState ClsZ :=
  match mdZ4E with
  | .ok s => s
  | .error _ => MDState.empty

/-- The raw four-candidate topological set of the same scenario, for the
layering counterexample. -/
def tsZE : Bool × TopSet (Cand ClsZ) :=
  [candZa, candZz, candZp, candZn].foldl
    (fun acc c =>
      let r := TopSet.add (candLt ClsZ.sub .cZ) (candLe ClsZ.sub .cZ) (·.priority) acc.2 c
      (acc.1 && r.1, r.2))
    (true, ⟨[], []⟩)

def tsZ : TopSet (Cand ClsZ) := tsZE.2

/-! ### Concrete state for the maximal-antichain scenario (claim C6) -/

def candM1 : Cand ClsM := ⟨0, [.cls .m1], 0, .notImplemented⟩
def candM2 : Cand ClsM := ⟨1, [.cls .m2], 0, .notImplemented⟩
def candM3 : Cand ClsM := ⟨2, [.cls .m3], 0, .notImplemented⟩
def candMD : Cand ClsM := ⟨3, [.cls .mD], 0, .notImplemented⟩

def tsME : Bool × TopSet (Cand ClsM) :=
  [candM1, candM2, candM3, candMD].foldl
    (fun acc c =>
      let r := TopSet.add (candLt ClsM.sub .m3) (candLe ClsM.sub .m3) (·.priority) acc.2 c
      (acc.1 && r.1, r.2))
    (true, ⟨[], []⟩)

def tsM : TopSet (Cand ClsM) := tsME.2

/-- A candidate constrained by the diamond type variable
`TypeVar(T, b1, b2)`; matching it at class `q` raises
`AmbiguousBindingError`. -/
def candTv : Cand ClsD := ⟨0, [.tvar 0 [.b1, .b2] none], 0, .obj 3⟩

/-- A one-candidate arity-1 registry over `ClsD` whose only body returns
the sentinel: querying `(b1,)` matches it, skips past the sentinel and
genuinely exhausts every group. -/
def mdDE : Except String (MDState ClsD) :=
  MDState.addCandidate ClsD.sub .b1 MDState.empty ⟨0, [.cls .b1], 0, .notImplemented⟩

def mdD : MDState ClsD :=
  match mdDE with
  | .ok s => s
  | .error _ => MDState.empty

/-- The priority of a (nonempty) priority group: the priority of its
first member. -/
def prioOf {C : Type u} : List (Cand C) → Int
  | [] => 0
  | c :: _ => c.priority

/-! ## Well-formedness of a topological-set state

Propositions used to reason about `TopSet.layers`.  `GtPath` is a
nonempty path along `gt` edges; `TopWF` collects the structural facts
that hold of every state `TopologicalSet.add` builds (edge symmetry,
no duplicate edges, root children having the root as their only parent);
`RInv`/`CInv` are the loop invariants of the Kahn layering, and
`RoundsOK` is the stratification property the layering guarantees. -/

inductive GtPath (s : TopSet T) : Nat → Nat → Prop where
  | single {i j : Nat} : j ∈ s.gtIds (some i) → GtPath s i j
  | step {i j k : Nat} : j ∈ s.gtIds (some i) → GtPath s j k → GtPath s i k

structure TopWF (s : TopSet T) : Prop where
  root_valid : ∀ i ∈ s.rootGt, i < s.nodes.length
  root_nodup : s.rootGt.Nodup
  gt_valid : ∀ i, i < s.nodes.length → ∀ c ∈ s.gtIds (some i), c < s.nodes.length
  gt_nodup : ∀ i, i < s.nodes.length → (s.gtIds (some i)).Nodup
  lt_nodup : ∀ c, c < s.nodes.length → (s.ltIds c).Nodup
  sym1 : ∀ i, i < s.nodes.length → ∀ c ∈ s.gtIds (some i), some i ∈ s.ltIds c
  sym2 : ∀ c, c < s.nodes.length → ∀ p, some p ∈ s.ltIds c →
    c ∈ s.gtIds (some p) ∧ p < s.nodes.length
  root_only : ∀ c ∈ s.rootGt, s.ltIds c = [none]
  sym2r : ∀ c, c < s.nodes.length → none ∈ s.ltIds c → c ∈ s.rootGt

/-- Is a parent reference still blocking, given the already-emitted nodes
and the already-processed members `done` of the current round? -/
def freeOf (emitted done : List Nat) : Option Nat → Bool
  | none => true
  | some j => decide (j ∉ emitted ∧ j ∉ done)

/-- Mid-children variant: the current round member `k` has already been
erased from the dependency sets of its children in `csDone`. -/
def freeOfMid (emitted done : List Nat) (k : Nat) (csDone : List Nat) (c : Nat) :
    Option Nat → Bool
  | none => true
  | some j => decide (j ∉ emitted ∧ j ∉ done ∧ (j = k → c ∉ csDone))

/-- Invariant of the per-round loop of `layers` between two members of the
current round: `done ++ ks` is the round, `npAcc` the next round so far. -/
structure RInv (s : TopSet T) (emitted done ks npAcc : List Nat)
    (waiting : List (Nat × List (Option Nat))) : Prop where
  rd_valid : ∀ i ∈ done ++ ks, i < s.nodes.length
  rd_nodup : (done ++ ks).Nodup
  rd_fresh : ∀ i ∈ done ++ ks, i ∉ emitted
  rd_parents : ∀ i ∈ done ++ ks, ∀ p, some p ∈ s.ltIds i → p ∈ emitted
  acc_valid : ∀ i ∈ npAcc, i < s.nodes.length
  acc_nodup : npAcc.Nodup
  acc_fresh : ∀ i ∈ npAcc, i ∉ emitted ∧ i ∉ done ++ ks
  acc_parents : ∀ i ∈ npAcc, ∀ p, some p ∈ s.ltIds i → p ∈ emitted ∨ p ∈ done
  em_valid : ∀ e ∈ emitted, e < s.nodes.length
  em_closed : ∀ e ∈ emitted, ∀ p, some p ∈ s.ltIds e → p ∈ emitted
  w_fresh : ∀ c deps, (c, deps) ∈ waiting →
    c < s.nodes.length ∧ c ∉ emitted ∧ c ∉ done ++ ks ∧ c ∉ npAcc
  w_nodup : (waiting.map (·.1)).Nodup
  w_deps : ∀ c deps, (c, deps) ∈ waiting →
    deps ≠ [] ∧ deps = (s.ltIds c).filter (freeOf emitted done)
  untouched : ∀ c, c < s.nodes.length → c ∉ emitted → c ∉ done ++ ks → c ∉ npAcc →
    alookup waiting c = none → ∀ j, some j ∈ s.ltIds c → j ∉ emitted ∧ j ∉ done

/-- Invariant of the per-child loop while round member `k` is being
processed; `csDone ++ csTodo` is `k`'s `gt` list. -/
structure CInv (s : TopSet T) (emitted done : List Nat) (k : Nat) (ks : List Nat)
    (csDone csTodo npAcc : List Nat) (waiting : List (Nat × List (Option Nat))) : Prop where
  rd_valid : ∀ i ∈ done ++ k :: ks, i < s.nodes.length
  rd_nodup : (done ++ k :: ks).Nodup
  rd_fresh : ∀ i ∈ done ++ k :: ks, i ∉ emitted
  rd_parents : ∀ i ∈ done ++ k :: ks, ∀ p, some p ∈ s.ltIds i → p ∈ emitted
  cs_split : s.gtIds (some k) = csDone ++ csTodo
  acc_valid : ∀ i ∈ npAcc, i < s.nodes.length
  acc_nodup : npAcc.Nodup
  acc_fresh : ∀ i ∈ npAcc, i ∉ emitted ∧ i ∉ done ++ k :: ks
  acc_parents : ∀ i ∈ npAcc, ∀ p, some p ∈ s.ltIds i → p ∈ emitted ∨ p ∈ done ∨ p = k
  em_valid : ∀ e ∈ emitted, e < s.nodes.length
  em_closed : ∀ e ∈ emitted, ∀ p, some p ∈ s.ltIds e → p ∈ emitted
  w_fresh : ∀ c deps, (c, deps) ∈ waiting →
    c < s.nodes.length ∧ c ∉ emitted ∧ c ∉ done ++ k :: ks ∧ c ∉ npAcc
  w_nodup : (waiting.map (·.1)).Nodup
  w_deps : ∀ c deps, (c, deps) ∈ waiting →
    deps ≠ [] ∧ deps = (s.ltIds c).filter (freeOfMid emitted done k csDone c)
  acc_k_done : ∀ i ∈ npAcc, some k ∈ s.ltIds i → i ∈ csDone
  untouched : ∀ c, c < s.nodes.length → c ∉ emitted → c ∉ done ++ k :: ks → c ∉ npAcc →
    alookup waiting c = none → ∀ j, some j ∈ s.ltIds c → j ∉ emitted ∧ j ∉ done
  cs_done_touched : ∀ c ∈ csDone, c ∈ npAcc ∨ alookup waiting c ≠ none

/-- Executable path test in the `gt` graph, with fuel. -/
def gtReach (s : TopSet T) : Nat → Nat → Nat → Bool
  | 0, _, _ => false
  | fuel + 1, i, j =>
    (s.gtIds (some i)).any (fun m => decide (m = j) || gtReach s fuel m j)

/-- Index-level comparison through the stored elements, used to state
path hypotheses decidably. -/
def innerLt (s : TopSet T) (lt : T → T → Bool) (i j : Nat) : Bool :=
  match s.inner? i, s.inner? j with
  | some x, some y => lt x y
  | _, _ => false

/-- Pointwise negation of an optional comparison value (`i_cth and -i_cth`
in `cmp_type_hint`). -/
def negO (o : Option Int) : Option Int := o.map (fun i => -i)

/-- A chain of `gt` edges from a start reference down to a target node,
every intermediate node holding an element strictly below `x`: the
portion of the graph that the insertion walk for `x` is guaranteed to
explore. -/
def ChainTo (lt : T → T → Bool) (x : T) (s : TopSet T) : List (Option Nat) → Nat → Prop
  | [], _ => False
  | [p], y => y ∈ s.gtIds p
  | p :: q :: rest, y =>
      (∃ qi v, q = some qi ∧ qi ∈ s.gtIds p ∧ s.inner? qi = some v ∧ lt v x = true) ∧
      ChainTo lt x s (q :: rest) y

/-- The layering's stratification: every member of a round is valid,
unemitted, and has all its non-root parents emitted in earlier rounds. -/
def RoundsOK (s : TopSet T) : List Nat → List (List Nat) → Prop
  | _, [] => True
  | emitted, L :: R =>
      (∀ i ∈ L, i < s.nodes.length ∧ i ∉ emitted ∧
        ∀ p, some p ∈ s.ltIds i → p ∈ emitted) ∧
      L.Nodup ∧
      RoundsOK s (emitted ++ L) R

instance exceptDecEq {ε : Type u} {α : Type v} [DecidableEq ε] [DecidableEq α] :
    DecidableEq (Except ε α) := fun a b =>
  match a, b with
  | .ok x, .ok y =>
    if h : x = y then .isTrue (by rw [h]) else .isFalse (fun hh => by cases hh; exact h rfl)
  | .error x, .error y =>
    if h : x = y then .isTrue (by rw [h]) else .isFalse (fun hh => by cases hh; exact h rfl)
  | .ok _, .error _ => .isFalse (fun hh => by cases hh)
  | .error _, .ok _ => .isFalse (fun hh => by cases hh)

/-! # Theorems -/

/-- **C1.** For every type variable with a non-empty constraint set and
every runtime argument type: if no constraint member is a superclass (or
equal) of the runtime type, `constrain_type` reports no match (`ok none`);
if the applicable members have exactly one member that is a subclass of
every applicable member, the variable is bound to it (`ok (some m)`); and
if there is no unique such minimal member, the call raises
`AmbiguousBindingError` rather than silently reporting no match. -/
theorem c1_constrain_type_binding (issub : C → C → Bool) (cls : C)
    (tid : Nat) (constraints : List C) (hne : constraints ≠ []) :
    (constraints.filter (fun c => issub cls c) = [] →
      constrain_type issub cls (.tvar tid constraints none) = .ok none) ∧
    (∀ m,
      (constraints.filter (fun c => issub cls c)).filter
          (fun cand => (constraints.filter (fun c => issub cls c)).all
            (fun c => issub cand c)) = [m] →
      constrain_type issub cls (.tvar tid constraints none) = .ok (some m)) ∧
    (constraints.filter (fun c => issub cls c) ≠ [] →
      ((constraints.filter (fun c => issub cls c)).filter
          (fun cand => (constraints.filter (fun c => issub cls c)).all
            (fun c => issub cand c))).length ≠ 1 →
      constrain_type issub cls (.tvar tid constraints none) =
        .error ⟨constraints, cls,
          (constraints.filter (fun c => issub cls c)).filter
            (fun cand => (constraints.filter (fun c => issub cls c)).all
              (fun c => issub cand c))⟩) := by
  refine ⟨?_, ?_, ?_⟩
  · intro h
    rw [constrain_type]
    simp [hne, h]
  · intro m hm
    have hc : constraints.filter (fun c => issub cls c) ≠ [] := by
      intro h
      rw [h] at hm
      simp at hm
    rw [constrain_type]
    simp only [ne_eq, hne, not_false_eq_true, if_true, hc, if_false, hm]
  · intro hc hlen
    rw [constrain_type]
    simp only [hne, ne_eq, not_false_eq_true, if_true]
    simp only [hc, if_neg, ite_false]
    rcases hmin : (constraints.filter (fun c => issub cls c)).filter
        (fun cand => (constraints.filter (fun c => issub cls c)).all
          (fun c => issub cand c)) with _ | ⟨m, rest⟩
    · simp [hc, hmin]
    · rcases rest with _ | ⟨m2, rest2⟩
      · rw [hmin] at hlen
        simp at hlen
      · simp [hc, hmin]

/-- **C1 witness.**  On the diamond hierarchy `ClsD`: a runtime type
outside the constraints gives no match, a single applicable constraint is
bound, and the diamond raises `AmbiguousBindingError`. -/
theorem c1_constrain_type_binding_witness :
    constrain_type ClsD.sub .b1 (.tvar 0 [.b2] none) = .ok none ∧
    constrain_type ClsD.sub .q (.tvar 0 [.b1] none) = .ok (some .b1) ∧
    constrain_type ClsD.sub .q (.tvar 0 [.b1, .b2] none) =
      .error ⟨[.b1, .b2], .q, []⟩ := by
  refine ⟨?_, ?_, ?_⟩
  · exact (c1_constrain_type_binding ClsD.sub .b1 0 [.b2] (by decide)).1 (by decide)
  · exact (c1_constrain_type_binding ClsD.sub .q 0 [.b1] (by decide)).2.1 .b1 (by decide)
  · exact (c1_constrain_type_binding ClsD.sub .q 0 [.b1, .b2] (by decide)).2.2
      (by decide) (by decide)

/-- **C9.** Converting a conflict report to a boolean never yields a
boolean at all: `PotentialConflictSet.__bool__` returns
`self.errors or self.ambiguities`, which is a dict in every case, so
Python's `bool()` protocol raises `TypeError` — on the clean report as
well as on any report with findings — contradicting the claim that the
conversion yields `True`/`False` and never fails. -/
theorem c9_pcs_bool_always_type_error :
    pyBool ⟨[], []⟩ = .typeError ∧
    (∀ p : PotentialConflictSet, pyBool p = .typeError) ∧
    pyBool ⟨[], []⟩ ≠ .ok false := by
  refine ⟨rfl, ?_, by decide⟩
  intro p
  unfold pyBool pcsDunderBool
  by_cases h : p.errors = [] <;> simp [h]

/-- **C3.** A candidate body returning the `NotImplemented` sentinel makes
the search continue with the next group; any other value ends the call and
is returned after `RawReturnValue.unwrap`, so a body can deliberately
return `NotImplemented` by wrapping it; and if every group is exhausted,
`get` returns the caller-supplied default while the plain call raises
`NoCandidateError`. -/
theorem c3_sentinel_and_default (issub : C → C → Bool)
    (c : Cand C) (rest : List (List (Cand C))) (v : PyVal)
    (s : MDState C) (q : List C) (default : PyVal) :
    (c.body = .notImplemented →
       runGroups ([c] :: rest) = ((runGroups rest).1, c :: (runGroups rest).2)) ∧
    (c.body ≠ .notImplemented →
       runGroups ([c] :: rest) = (.found (RawReturnValue.unwrap c.body), [c])) ∧
    (RawReturnValue.unwrap (.raw v) = v) ∧
    (c.body = .raw .notImplemented →
       runGroups ([c] :: rest) = (.found .notImplemented, [c])) ∧
    ((MDState.getRun issub s q).2.res = .ok none →
       (MDState.getRunD issub s q default).2 = .ok default ∧
       (MDState.callRun issub s q).2 = .error .noCandidate) := by
  refine ⟨?_, ?_, rfl, ?_, ?_⟩
  · intro h
    simp [runGroups, h]
  · intro h
    simp [runGroups, h]
  · intro h
    simp [runGroups, h, RawReturnValue.unwrap]
  · intro h
    constructor
    · simp [MDState.getRunD, h]
    · simp [MDState.callRun, h]

/-- **C3 witness.**  Over `ClsD`: a sentinel-returning body makes the walk
continue; a wrapped sentinel is returned as a real `NotImplemented`; and
on the registry `mdD`, whose only arity-1 candidate matches the query
`(b1,)` but returns the sentinel, the search genuinely exhausts every
group, so `get` returns the default and the call raises
`NoCandidateError`. -/
theorem c3_sentinel_and_default_witness :
    runGroups [[(⟨0, [.cls .b1], 0, .notImplemented⟩ : Cand ClsD)]] =
      (.exhausted, [⟨0, [.cls .b1], 0, .notImplemented⟩]) ∧
    runGroups [[(⟨1, [.cls .b1], 0, .raw .notImplemented⟩ : Cand ClsD)]] =
      (.found .notImplemented, [⟨1, [.cls .b1], 0, .raw .notImplemented⟩]) ∧
    mdDE.isOk = true ∧
    (MDState.getRun ClsD.sub mdD [.b1]).2.attempts =
      [⟨0, [.cls .b1], 0, .notImplemented⟩] ∧
    (MDState.getRunD ClsD.sub mdD [.b1] (.obj 5)).2 = .ok (.obj 5) ∧
    (MDState.callRun ClsD.sub mdD [.b1]).2 = .error .noCandidate := by
  have h1 := (c3_sentinel_and_default ClsD.sub ⟨0, [.cls .b1], 0, .notImplemented⟩
    ([] : List (List (Cand ClsD))) .notImplemented mdD [.b1] (.obj 5)).1 rfl
  have h2 := (c3_sentinel_and_default ClsD.sub ⟨1, [.cls .b1], 0, .raw .notImplemented⟩
    ([] : List (List (Cand ClsD))) .notImplemented mdD [.b1] (.obj 5)).2.2.2.1 rfl
  have h3 := (c3_sentinel_and_default ClsD.sub (⟨0, [], 0, .notImplemented⟩ : Cand ClsD)
    [] .notImplemented mdD [.b1] (.obj 5)).2.2.2.2 (by decide)
  refine ⟨?_, h2, by decide, by decide, h3.1, h3.2⟩
  simpa [runGroups] using h1

/-! ### Replay lemmas for the cached search -/

theorem runGroups_append_exhausted (xs ys : List (List (Cand C))) (att : List (Cand C))
    (h : runGroups xs = (.exhausted, att)) :
    runGroups (xs ++ ys) = ((runGroups ys).1, att ++ (runGroups ys).2) := by
  induction xs generalizing att with
  | nil =>
    simp only [runGroups] at h
    cases h
    simp
  | cons g rest ih =>
    match g with
    | [] => simp [runGroups] at h
    | [c] =>
      by_cases hb : c.body = .notImplemented
      · simp only [runGroups, hb, if_true] at h
        rcases hrr : runGroups rest with ⟨r2, att2⟩
        rw [hrr] at h
        cases h
        have h3 := ih att2 hrr
        simp only [List.cons_append, runGroups, hb, if_true, List.append_eq, h3]
      · simp [runGroups, hb] at h
    | c1 :: c2 :: cs => simp [runGroups] at h

theorem runGroups_append_stop (xs ys : List (List (Cand C))) (r : RunStop C)
    (att : List (Cand C)) (h : runGroups xs = (r, att)) (hr : r ≠ .exhausted) :
    runGroups (xs ++ ys) = (r, att) := by
  induction xs generalizing att with
  | nil =>
    simp only [runGroups] at h
    cases h
    exact absurd rfl hr
  | cons g rest ih =>
    match g with
    | [] =>
      simp only [runGroups] at h ⊢
      exact h
    | [c] =>
      by_cases hb : c.body = .notImplemented
      · simp only [runGroups, hb, if_true] at h
        rcases hrr : runGroups rest with ⟨r2, att2⟩
        rw [hrr] at h
        cases h
        have h3 := ih att2 hrr
        simp only [List.cons_append, runGroups, hb, if_true, List.append_eq, h3]
      · simp only [runGroups, hb, if_false] at h
        simp only [List.cons_append, runGroups, hb, if_false]
        exact h
    | c1 :: c2 :: cs =>
      simp only [runGroups] at h ⊢
      exact h

/-- After the advancing phase has run from a `sorted` prefix that walks to
exhaustion, re-running `csGet` on the resulting cache state replays the
same result, with the prefix's attempts in front. -/
theorem advLoopGo_replay (issub : C → C → Bool) (q : List C)
    (layers : List (List (Cand C))) (sorted : List (List (Cand C)))
    (attS : List (Cand C)) (h : runGroups sorted = (.exhausted, attS)) :
    csGet issub q (advLoopGo issub q layers sorted).1 =
      ⟨(advLoopGo issub q layers sorted).1,
       (advLoopGo issub q layers sorted).2.1,
       attS ++ (advLoopGo issub q layers sorted).2.2⟩ := by
  induction layers generalizing sorted attS with
  | nil =>
    simp only [advLoopGo, csGet, advLoop, h]
  | cons layer rest ih =>
    rcases hexc : layerFirstExc issub q layer with _ | e
    case cons.none =>
      simp only [advLoopGo, hexc]
      rcases hrg : runGroups ((groupRuns (matchedOf issub q layer)).reverse) with ⟨r, att⟩
      have hfull := runGroups_append_exhausted sorted
        ((groupRuns (matchedOf issub q layer)).reverse) attS h
      rw [hrg] at hfull
      match r with
      | .found v =>
        simp only [hrg, csGet, hfull]
      | .amb g =>
        simp only [hrg, csGet, hfull]
      | .exhausted =>
        simp only [hrg]
        have h2 := ih (sorted ++ (groupRuns (matchedOf issub q layer)).reverse) (attS ++ att)
          (by simpa using hfull)
        simp only [h2, List.append_assoc]
    case cons.some =>
      simp only [advLoopGo, hexc, csGet, h, advLoop]

/-- `csGet` is idempotent on the cache state it produces: re-running the
same query yields the same state, result and attempt list. -/
theorem csGet_idem (issub : C → C → Bool) (q : List C) (cs : CS C) :
    csGet issub q (csGet issub q cs).cs = csGet issub q cs := by
  rcases h : runGroups cs.sorted with ⟨r, att⟩
  match r with
  | .found v => simp only [csGet, h]
  | .amb g => simp only [csGet, h]
  | .exhausted =>
    rcases hli : cs.layerIter with _ | layers
    · simp only [csGet, h, advLoop, hli]
    · simp only [csGet, h, advLoop, hli]
      exact advLoopGo_replay issub q layers cs.sorted att h

/-! ### Association-list lemmas -/

theorem alookup_astore_self {α : Type u} {β : Type v} [DecidableEq α]
    (m : List (α × β)) (k : α) (v : β) : alookup (astore m k v) k = some v := by
  induction m with
  | nil => simp [astore, alookup]
  | cons p rest ih =>
    by_cases hk : p.1 = k
    · simp [astore, alookup, hk]
    · simp [astore, alookup, hk, ih]

theorem astore_astore_self {α : Type u} {β : Type v} [DecidableEq α]
    (m : List (α × β)) (k : α) (v : β) :
    astore (astore m k v) k v = astore m k v := by
  induction m with
  | nil => simp [astore]
  | cons p rest ih =>
    by_cases hk : p.1 = k
    · simp [astore, hk]
    · simp [astore, hk, ih]

theorem alookup_aerase_self {α : Type u} {β : Type v} [DecidableEq α]
    (m : List (α × β)) (k : α) : alookup (aerase m k) k = none := by
  induction m with
  | nil => simp [aerase, alookup]
  | cons p rest ih =>
    by_cases hk : p.1 = k
    · simpa [aerase, alookup, hk] using ih
    · simpa [aerase, alookup, hk] using ih

theorem alookup_aerase_ne {α : Type u} {β : Type v} [DecidableEq α]
    (m : List (α × β)) (k k2 : α) (hne : k2 ≠ k) :
    alookup (aerase m k) k2 = alookup m k2 := by
  induction m with
  | nil => simp [aerase, alookup]
  | cons p rest ih =>
    by_cases hk : p.1 = k
    · have h2 : ¬ p.1 = k2 := by rw [hk]; intro h; exact hne h.symm
      rw [show aerase (p :: rest) k = aerase rest k from by simp [aerase, hk]]
      rw [ih]
      simp [alookup, h2]
    · rw [show aerase (p :: rest) k = p :: aerase rest k from by simp [aerase, hk]]
      by_cases hk2 : p.1 = k2 <;> simp [alookup, hk2, ih]

/-- A second `get` run with the same type tuple against the state the
first run left behind is a no-op: on every branch — cache hit, fresh
search over a registered arity, or the `KeyError` path for an
unregistered one — the result and the final state coincide with the
first run's. -/
theorem getRun_idem (issub : C → C → Bool) (s : MDState C) (q : List C) :
    MDState.getRun issub (MDState.getRun issub s q).1 q = MDState.getRun issub s q := by
  rcases hlook : alookup ((alookup s.cache q.length).getD []) q with _ | cs0
  · rcases hts : alookup s.topsets q.length with _ | ts
    · by_cases hsub : (alookup s.cache q.length).getD [] = ([] : List (List C × CS C))
      · have h1 : MDState.getRun issub s q =
            ({ s with cache := astore s.cache q.length [] },
             ⟨⟨none, []⟩, .error (.keyError q.length), []⟩) := by
          simp only [MDState.getRun, hlook, hts, if_pos hsub]
        rw [h1]
        have hsub2 : (alookup (astore s.cache q.length
            ([] : List (List C × CS C))) q.length).getD [] =
            ([] : List (List C × CS C)) := by
          rw [alookup_astore_self]
          rfl
        simp only [MDState.getRun, hsub2, alookup, hts, astore_astore_self, if_true]
      · have h1 : MDState.getRun issub s q =
            (s, ⟨⟨none, []⟩, .error (.keyError q.length), []⟩) := by
          simp only [MDState.getRun, hlook, hts, if_neg hsub]
        rw [h1]
        exact h1
    · have h1 : MDState.getRun issub s q =
          ({ s with cache := (astore s.cache q.length
              (astore ((alookup s.cache q.length).getD []) q
                (csGet issub q ⟨some ts.layers, []⟩).cs)) },
           csGet issub q ⟨some ts.layers, []⟩) := by
        simp only [MDState.getRun, hlook, hts]
      rw [h1]
      simp only [MDState.getRun, alookup_astore_self, Option.getD_some, csGet_idem,
        astore_astore_self]
  · have h1 : MDState.getRun issub s q =
        ({ s with cache := (astore s.cache q.length
            (astore ((alookup s.cache q.length).getD []) q (csGet issub q cs0).cs)) },
         csGet issub q cs0) := by
      simp only [MDState.getRun, hlook]
    rw [h1]
    simp only [MDState.getRun, alookup_astore_self, Option.getD_some, csGet_idem,
      astore_astore_self]

/-- **C7.** For a fixed registry, calling twice with the same runtime type
tuple attempts the same candidates in the same order, returns the same
result (candidate bodies being pure values in this model), and leaves the
dispatcher state — in particular the memoized cached search — exactly as
after the first call. -/
theorem c7_repeat_call_deterministic (issub : C → C → Bool) (s : MDState C) (q : List C) :
    (MDState.getRun issub (MDState.getRun issub s q).1 q).2.res =
      (MDState.getRun issub s q).2.res ∧
    (MDState.getRun issub (MDState.getRun issub s q).1 q).2.attempts =
      (MDState.getRun issub s q).2.attempts ∧
    (MDState.getRun issub (MDState.getRun issub s q).1 q).1 =
      (MDState.getRun issub s q).1 := by
  rw [getRun_idem]
  exact ⟨rfl, rfl, rfl⟩

/-- **C10.** If, while advancing the cached search, matching some
candidate of the next unconsumed layer raises a match exception (such as
`AmbiguousBindingError`), `advance` raises it with the cursor restored to
before the failing layer and without recording the layer's matches, and
the surrounding `get` run surfaces the exception leaving the cache state
exactly as it was — so a subsequent call with the same argument types
raises the same error again instead of silently skipping the layer. -/
theorem c10_match_exception_replayed (issub : C → C → Bool) (q : List C)
    (cs : CS C) (layer : List (Cand C)) (rest : List (List (Cand C)))
    (e : AmbBind C) (att : List (Cand C))
    (hli : cs.layerIter = some (layer :: rest))
    (hexc : layerFirstExc issub q layer = some e)
    (hsorted : runGroups cs.sorted = (.exhausted, att)) :
    CS.advance issub q cs = .error e ∧
    csGet issub q cs = ⟨cs, .error (.matchExc e), att⟩ ∧
    csGet issub q ((csGet issub q cs).cs) = ⟨cs, .error (.matchExc e), att⟩ := by
  obtain ⟨li, so⟩ := cs
  simp only at hli hsorted
  subst hli
  have h2 : csGet issub q (⟨some (layer :: rest), so⟩ : CS C) =
      ⟨⟨some (layer :: rest), so⟩, .error (.matchExc e), att⟩ := by
    simp only [csGet, hsorted, advLoop, advLoopGo, hexc]
    simp
  refine ⟨?_, h2, ?_⟩
  · simp only [CS.advance, hexc]
  · rw [h2]
    exact h2

/-- **C10 witness.**  A single-layer search whose only candidate carries
the diamond type variable `TypeVar(T, b1, b2)`: querying with the common
subclass `q` raises `AmbiguousBindingError`, the cursor stays put, and the
rerun raises the same error. -/
theorem c10_match_exception_replayed_witness :
    CS.advance ClsD.sub [.q] ⟨some [[candTv]], []⟩ = .error ⟨[.b1, .b2], .q, []⟩ ∧
    csGet ClsD.sub [.q] (⟨some [[candTv]], []⟩ : CS ClsD) =
      ⟨⟨some [[candTv]], []⟩, .error (.matchExc ⟨[.b1, .b2], .q, []⟩), []⟩ ∧
    csGet ClsD.sub [.q]
        ((csGet ClsD.sub [.q] (⟨some [[candTv]], []⟩ : CS ClsD)).cs) =
      ⟨⟨some [[candTv]], []⟩, .error (.matchExc ⟨[.b1, .b2], .q, []⟩), []⟩ :=
  c10_match_exception_replayed ClsD.sub [.q] ⟨some [[candTv]], []⟩ [candTv] []
    ⟨[.b1, .b2], .q, []⟩ [] rfl (by decide) rfl

/-- **C8 (amended).** For every successful registration of a candidate of
arity `n`: the whole per-arity cache for `n` is dropped — so every cached
resolution entry keyed by a type tuple of length `n` is gone and the next
call for such a tuple recomputes its layers against the updated registry —
while cached entries for every other arity are left unchanged.  (The
original claim's parenthetical that the recomputation always prefers a
newly added strictly-more-specific candidate is refuted separately.) -/
theorem c8_amended_cache_invalidation (issub : C → C → Bool) (obj : C)
    (s s2 : MDState C) (c : Cand C)
    (h : MDState.addCandidate issub obj s c = .ok s2) :
    alookup s2.cache c.types.length = none ∧
    (∀ m, m ≠ c.types.length → alookup s2.cache m = alookup s.cache m) ∧
    (∀ q : List C, q.length = c.types.length → s2.lookupCS q.length q = none) := by
  simp only [MDState.addCandidate] at h
  by_cases hok : (((alookup s.topsets c.types.length).getD ⟨[], []⟩).add
      (candLt issub obj) (candLe issub obj) (fun c => c.priority) c).1
  · rw [if_pos hok] at h
    cases h
    refine ⟨?_, ?_, ?_⟩
    · exact alookup_aerase_self _ _
    · intro m hm
      exact alookup_aerase_ne _ _ _ hm
    · intro q hq
      simp only [MDState.lookupCS, hq]
      rw [show alookup (MDState.cleanCache { s with
          topsets := astore s.topsets c.types.length
            (((alookup s.topsets c.types.length).getD ⟨[], []⟩).add
              (candLt issub obj) (candLe issub obj) (fun c => c.priority) c).2 }
          c.types.length).cache c.types.length = none from alookup_aerase_self _ _]
  · rw [if_neg hok] at h
    cases h

/-- **C8 witness.**  Registering the arity-1 candidate `(cN,)` over `ClsZ`
on a dispatcher with a populated arity-1 cache drops that cache and keeps
(absent) entries of other arities unchanged. -/
theorem c8_amended_cache_invalidation_witness :
    alookup mdZ4.cache 1 = none ∧
    alookup mdZ4.cache 2 = alookup mdZ3c.cache 2 ∧
    mdZ4.lookupCS 1 [ClsZ.cQ] = none := by
  have h : MDState.addCandidate ClsZ.sub .cZ mdZ3c candZn = .ok mdZ4 := by decide
  have h2 := c8_amended_cache_invalidation ClsZ.sub .cZ mdZ3c mdZ4 candZn h
  exact ⟨h2.1, h2.2.1 2 (by decide), h2.2.2 [ClsZ.cQ] (by decide)⟩

/-- **C8 counterexample.**  The claim's parenthetical — that after the
invalidation the next call prefers a newly added strictly-more-specific
candidate — fails on the code: over `ClsZ`, the registry `a=(cA,),
z=(cZ,), p=(cP,)` resolves the query `(cQ,)` to `z`; registering the
strictly more specific, matching `n=(cN,)` invalidates the cache, but the
next call raises `AmbiguityError` on `{z, n}` (the insertion search never
discovered the `n → z` ordering, so both share a layer) instead of
invoking `n`. -/
theorem c8_counterexample_new_specific_not_preferred :
    mdZ3E.isOk = true ∧
    (MDState.callRun ClsZ.sub mdZ3 [.cQ]).2 = .ok (.obj 7) ∧
    mdZ4E.isOk = true ∧
    candLt ClsZ.sub .cZ candZn candZz = true ∧
    (candMatch ClsZ.sub [.cQ] candZn).isMatch = true ∧
    (MDState.callRun ClsZ.sub mdZ4 [.cQ]).2 =
      .error (.dispatch (.amb [candZz, candZn] [.cQ])) ∧
    (MDState.callRun ClsZ.sub mdZ4 [.cQ]).2 ≠ .ok (.obj 9) := by
  refine ⟨by decide, by decide, by decide, by decide, by decide, by decide, by decide⟩

/-! ### Structure of the `advance` grouping -/

theorem groupRuns_cons_ne_nil (x : Cand C) (xs : List (Cand C)) :
    groupRuns (x :: xs) ≠ [] := by
  match xs with
  | [] => simp [groupRuns]
  | y :: r =>
    cases h : groupRuns (y :: r) with
    | nil => simp [groupRuns, h]
    | cons g gs => by_cases hp : x.priority = y.priority <;> simp [groupRuns, h, hp]

/-- The first group of `groupRuns (x :: xs)` starts with `x`. -/
theorem groupRuns_head (x : Cand C) (xs : List (Cand C)) :
    ∃ t gs, groupRuns (x :: xs) = (x :: t) :: gs := by
  match xs with
  | [] => exact ⟨[], [], rfl⟩
  | y :: r =>
    cases h : groupRuns (y :: r) with
    | nil => exact absurd h (groupRuns_cons_ne_nil y r)
    | cons g gs =>
      by_cases hp : x.priority = y.priority
      · exact ⟨g, gs, by simp [groupRuns, h, hp]⟩
      · exact ⟨[], g :: gs, by simp [groupRuns, h, hp]⟩

theorem groupRuns_join (l : List (Cand C)) : (groupRuns l).join = l := by
  induction l with
  | nil => simp [groupRuns]
  | cons x xs ih =>
    match xs with
    | [] => simp [groupRuns]
    | y :: r =>
      cases h : groupRuns (y :: r) with
      | nil => exact absurd h (groupRuns_cons_ne_nil y r)
      | cons g gs =>
        rw [h] at ih
        by_cases hp : x.priority = y.priority
        · simp only [groupRuns, h, hp, if_true, List.join]
          simpa using ih
        · simp only [groupRuns, h, hp, if_false, List.join]
          simpa using ih

/-- Every group produced by `groupRuns` is a run of one single priority. -/
theorem groupRuns_same_priority (l : List (Cand C)) :
    ∀ g ∈ groupRuns l, ∀ a ∈ g, ∀ b ∈ g, a.priority = b.priority := by
  induction l with
  | nil => simp [groupRuns]
  | cons x xs ih =>
    match xs with
    | [] =>
      intro g hg a ha b hb
      simp only [groupRuns, List.mem_singleton] at hg
      subst hg
      simp only [List.mem_singleton] at ha hb
      rw [ha, hb]
    | y :: r =>
      obtain ⟨t, gs0, hhead⟩ := groupRuns_head y r
      intro g hg a ha b hb
      by_cases hp : x.priority = y.priority
      · rw [show groupRuns (x :: y :: r) = (x :: y :: t) :: gs0 from by
            simp [groupRuns, hhead, hp]] at hg
        rcases List.mem_cons.mp hg with hgeq | hgmem
        · subst hgeq
          have hy : ∀ z ∈ y :: t, z.priority = y.priority := by
            intro z hz
            exact ih (y :: t) (by rw [hhead]; exact List.mem_cons_self _ _) z hz y
              (List.mem_cons_self _ _)
          have ha2 : a.priority = x.priority := by
            rcases List.mem_cons.mp ha with h1 | h1
            · rw [h1]
            · rw [hy a h1, hp]
          have hb2 : b.priority = x.priority := by
            rcases List.mem_cons.mp hb with h1 | h1
            · rw [h1]
            · rw [hy b h1, hp]
          rw [ha2, hb2]
        · exact ih g (by rw [hhead]; exact List.mem_cons_of_mem _ hgmem) a ha b hb
      · rw [show groupRuns (x :: y :: r) = [x] :: (y :: t) :: gs0 from by
            simp [groupRuns, hhead, hp]] at hg
        rcases List.mem_cons.mp hg with hgeq | hgmem
        · subst hgeq
          simp only [List.mem_singleton] at ha hb
          rw [ha, hb]
        · exact ih g (by rw [hhead]; exact hgmem) a ha b hb

theorem groupRuns_groups_ne_nil (l : List (Cand C)) :
    ∀ g ∈ groupRuns l, g ≠ [] := by
  induction l with
  | nil => simp [groupRuns]
  | cons x xs ih =>
    match xs with
    | [] =>
      intro g hg
      simp only [groupRuns, List.mem_singleton] at hg
      subst hg
      simp
    | y :: r =>
      obtain ⟨t, gs0, hhead⟩ := groupRuns_head y r
      intro g hg
      by_cases hp : x.priority = y.priority
      · rw [show groupRuns (x :: y :: r) = (x :: y :: t) :: gs0 from by
            simp [groupRuns, hhead, hp]] at hg
        rcases List.mem_cons.mp hg with hgeq | hgmem
        · subst hgeq; simp
        · exact ih g (by rw [hhead]; exact List.mem_cons_of_mem _ hgmem)
      · rw [show groupRuns (x :: y :: r) = [x] :: (y :: t) :: gs0 from by
            simp [groupRuns, hhead, hp]] at hg
        rcases List.mem_cons.mp hg with hgeq | hgmem
        · subst hgeq; simp
        · exact ih g (by rw [hhead]; exact hgmem)

theorem prioOf_eq_of_mem (l : List (Cand C)) (g : List (Cand C)) (a : Cand C)
    (hg : g ∈ groupRuns l) (ha : a ∈ g) : prioOf g = a.priority := by
  match g with
  | [] => cases ha
  | c :: t =>
    show c.priority = a.priority
    exact groupRuns_same_priority l (c :: t) hg c (List.mem_cons_self _ _) a ha

/-- With a layer whose matched candidates are sorted by ascending
priority, the run grouping yields strictly ascending group priorities. -/
theorem groupRuns_prio_ascending (l : List (Cand C))
    (hsort : l.Pairwise (fun a b => a.priority ≤ b.priority)) :
    ((groupRuns l).map prioOf).Pairwise (· < ·) := by
  induction l with
  | nil => simp [groupRuns]
  | cons x xs ih =>
    match xs with
    | [] => simp [groupRuns]
    | y :: r =>
      obtain ⟨t, gs0, hhead⟩ := groupRuns_head y r
      have hs2 := (List.pairwise_cons.mp hsort).2
      have ih2 := ih hs2
      rw [hhead] at ih2
      have hxy : x.priority ≤ y.priority := (List.pairwise_cons.mp hsort).1 y
        (List.mem_cons_self _ _)
      by_cases hp : x.priority = y.priority
      · rw [show groupRuns (x :: y :: r) = (x :: y :: t) :: gs0 from by
            simp [groupRuns, hhead, hp]]
        simp only [List.map_cons, prioOf] at ih2 ⊢
        rw [hp]
        exact ih2
      · rw [show groupRuns (x :: y :: r) = [x] :: (y :: t) :: gs0 from by
            simp [groupRuns, hhead, hp]]
        simp only [List.map_cons, prioOf] at ih2 ⊢
        have hlt : x.priority < y.priority := lt_of_le_of_ne hxy hp
        refine List.Pairwise.cons ?_ ih2
        intro p hp2
        rcases List.mem_cons.mp hp2 with h1 | h1
        · rw [h1]; exact hlt
        · exact lt_trans hlt ((List.pairwise_cons.mp ih2).1 p h1)

theorem pairwise_lt_same_group {C : Type u} (gs : List (List (Cand C)))
    (hp : gs.Pairwise (fun g h => prioOf g < prioOf h)) :
    ∀ ga gb (a b : Cand C), ga ∈ gs → gb ∈ gs → a ∈ ga → b ∈ gb →
      prioOf ga = prioOf gb → ∃ g, g ∈ gs ∧ a ∈ g ∧ b ∈ g := by
  induction gs with
  | nil => intro ga gb a b hga; cases hga
  | cons g0 rest ih =>
    intro ga gb a b hga hgb ha hb heq
    rcases List.mem_cons.mp hga with h1 | h1 <;> rcases List.mem_cons.mp hgb with h2 | h2
    · exact ⟨g0, List.mem_cons_self _ _, h1 ▸ ha, h2 ▸ hb⟩
    · subst h1
      have := (List.pairwise_cons.mp hp).1 gb h2
      rw [heq] at this
      exact absurd this (lt_irrefl _)
    · subst h2
      have := (List.pairwise_cons.mp hp).1 ga h1
      rw [heq] at this
      exact absurd this (lt_irrefl _)
    · obtain ⟨g, hmem, hag, hbg⟩ := ih (List.pairwise_cons.mp hp).2 ga gb a b h1 h2 ha hb heq
      exact ⟨g, List.mem_cons_of_mem _ hmem, hag, hbg⟩

/-- With an ascending-priority list, two equal-priority members always
share one run group. -/
theorem groupRuns_equal_priority_same_group (l : List (Cand C))
    (hsort : l.Pairwise (fun a b => a.priority ≤ b.priority))
    (a b : Cand C) (ha : a ∈ l) (hb : b ∈ l) (hab : a.priority = b.priority) :
    ∃ g, g ∈ groupRuns l ∧ a ∈ g ∧ b ∈ g := by
  have hja : a ∈ (groupRuns l).join := by rw [groupRuns_join]; exact ha
  have hjb : b ∈ (groupRuns l).join := by rw [groupRuns_join]; exact hb
  obtain ⟨ga, hga, hain⟩ := List.mem_join.mp hja
  obtain ⟨gb, hgb, hbin⟩ := List.mem_join.mp hjb
  have hasc := groupRuns_prio_ascending l hsort
  have hpw : (groupRuns l).Pairwise (fun g h => prioOf g < prioOf h) :=
    (List.pairwise_map.mp hasc)
  have heq : prioOf ga = prioOf gb := by
    rw [prioOf_eq_of_mem l ga a hga hain, prioOf_eq_of_mem l gb b hgb hbin, hab]
  exact pairwise_lt_same_group (groupRuns l) hpw ga gb a b hga hgb hain hbin heq

/-- **C2 (amended).** Within one specificity layer, the matching
candidates are grouped into maximal runs of adjacent equal priority in the
layer's stored order, and the groups are attempted in reverse of that
order; whenever the matched candidates appear in ascending priority order
(which holds for the first emitted layer, whose `SortedSet` is keyed by
priority), this attempts groups in strictly descending priority with all
equal-priority matches sharing one group.  An attempted group with two or
more members raises `AmbiguityError` naming the tying candidates instead
of invoking any body; a group with exactly one member has its body
invoked. -/
theorem c2_amended_grouping (issub : C → C → Bool) (q : List C)
    (layer : List (Cand C)) (rest sorted : List (List (Cand C)))
    (hexc : layerFirstExc issub q layer = none)
    (hsort : (matchedOf issub q layer).Pairwise (fun a b => a.priority ≤ b.priority)) :
    CS.advance issub q ⟨some (layer :: rest), sorted⟩ =
      .ok (⟨some rest, sorted ++ (groupRuns (matchedOf issub q layer)).reverse⟩,
        .batch ((groupRuns (matchedOf issub q layer)).reverse)) ∧
    (((groupRuns (matchedOf issub q layer)).reverse).map prioOf).Pairwise (· > ·) ∧
    (∀ a b : Cand C, a ∈ matchedOf issub q layer → b ∈ matchedOf issub q layer →
      a.priority = b.priority →
      ∃ g, g ∈ (groupRuns (matchedOf issub q layer)).reverse ∧ a ∈ g ∧ b ∈ g) ∧
    (∀ (g : List (Cand C)) (gs : List (List (Cand C))), 2 ≤ g.length →
      runGroups (g :: gs) = (.amb g, [])) ∧
    (∀ (c : Cand C) (gs : List (List (Cand C))), c.body ≠ .notImplemented →
      runGroups ([c] :: gs) = (.found (RawReturnValue.unwrap c.body), [c])) := by
  refine ⟨?_, ?_, ?_, ?_, ?_⟩
  · simp only [CS.advance, hexc]
  · rw [List.map_reverse]
    rw [List.pairwise_reverse]
    exact groupRuns_prio_ascending _ hsort
  · intro a b ha hb hab
    obtain ⟨g, hg, hag, hbg⟩ := groupRuns_equal_priority_same_group _ hsort a b ha hb hab
    exact ⟨g, List.mem_reverse.mpr hg, hag, hbg⟩
  · intro g gs hlen
    match g with
    | [] => simp at hlen
    | [c] => simp at hlen
    | c1 :: c2 :: cs => simp [runGroups]
  · intro c gs hc
    simp [runGroups, hc]

/-- **C2 (amended) witness.**  The first emitted layer of the `ClsP`
registry, whose matched candidates `S1, S2, S3` carry ascending priorities
`0, 1, 2`: `advance` consumes it into three groups attempted descending,
and equal-priority candidates share a group. -/
theorem c2_amended_grouping_witness :
    CS.advance ClsP.sub [.Q]
        ⟨some ([candS1, candS2, candS3] :: [[candB1, candB2, candB3]]), []⟩ =
      .ok (⟨some [[candB1, candB2, candB3]],
            [] ++ (groupRuns (matchedOf ClsP.sub [.Q] [candS1, candS2, candS3])).reverse⟩,
        .batch ((groupRuns (matchedOf ClsP.sub [.Q] [candS1, candS2, candS3])).reverse)) ∧
    (∃ g, g ∈ (groupRuns (matchedOf ClsP.sub [.Q] [candS1, candS2, candS3])).reverse ∧
      candS2 ∈ g ∧ candS2 ∈ g) :=
  ⟨(c2_amended_grouping ClsP.sub [.Q] [candS1, candS2, candS3] [[candB1, candB2, candB3]] []
      (by decide) (by decide)).1,
   (c2_amended_grouping ClsP.sub [.Q] [candS1, candS2, candS3] [[candB1, candB2, candB3]] []
      (by decide) (by decide)).2.2.1 candS2 candS2 (by decide) (by decide) rfl⟩

/-- **C2 counterexample.**  In the `ClsP` registry the second emitted
layer holds `B1, B2, B3` with priorities `0, 1, 0` in that stored order;
all three match the query `(Q,)`.  The claim requires the layer's matches
to be attempted grouped by priority in descending order — `B2` (priority
1) first, then the equal-priority group `{B1, B3}`, which (both still
matching) must raise `AmbiguityError`.  The code instead groups by
adjacency, attempts `B3` (priority 0) before `B2` (priority 1), invokes
`B3`'s body and returns `obj 42`: no `AmbiguityError` is raised and
`B1`'s and `B2`'s bodies are never attempted. -/
theorem c2_counterexample_priority_order_violated :
    mdPE.isOk = true ∧
    ((alookup mdP.topsets 1).getD ⟨[], []⟩).layers =
      [[candS1, candS2, candS3], [candB1, candB2, candB3]] ∧
    (candMatch ClsP.sub [.Q] candB1).isMatch = true ∧
    (candMatch ClsP.sub [.Q] candB2).isMatch = true ∧
    (candMatch ClsP.sub [.Q] candB3).isMatch = true ∧
    candB1.priority = candB3.priority ∧
    candB1 ≠ candB3 ∧
    candB2.priority = 1 ∧
    candB3.priority = 0 ∧
    (MDState.callRun ClsP.sub mdP [.Q]).2 = .ok (.obj 42) ∧
    (MDState.getRun ClsP.sub mdP [.Q]).2.attempts = [candS3, candS2, candS1, candB3] := by
  refine ⟨by decide, by decide, by decide, by decide, by decide, by decide, by decide,
    by decide, by decide, by decide, by decide⟩

/-- **C6 counterexample.**  Two reachable four-candidate states refute
both halves of the claim.  Over `ClsM` (`m1 ⊂ m2 ⊂ m3` plus the unrelated
`mD`), the layering emits `[[m1, mD], [m2], [m3]]`: the layer `[m2]` is
not a *maximal* antichain, since the stored `mD` outside it is
incomparable with its every member.  Over `ClsZ` (insertion order
`a=(cA,), z=(cZ,), p=(cP,), n=(cN,)`), the layering emits
`[[a, p], [z, n]]` although `n` strictly supersedes `z`: mutual
incomparability inside a layer also fails, because the insertion search
explores only comparable chains and never discovered the `n → z`
ordering. -/
theorem c6_counterexample_layers_not_maximal_antichains :
    tsME.1 = true ∧
    tsM.layers = [[candM1, candMD], [candM2], [candM3]] ∧
    candMD ∈ tsM.elems ∧
    candMD ∉ [candM2] ∧
    candLt ClsM.sub .m3 candMD candM2 = false ∧
    candLt ClsM.sub .m3 candM2 candMD = false ∧
    tsZE.1 = true ∧
    tsZ.layers = [[candZa, candZp], [candZz, candZn]] ∧
    candZn ≠ candZz ∧
    candLt ClsZ.sub .cZ candZn candZz = true := by
  refine ⟨by decide, by decide, by decide, by decide, by decide, by decide, by decide,
    by decide, by decide, by decide⟩

/-! ### Membership facts about the association-list operations -/

theorem alookup_none_iff_keys {α : Type u} {β : Type v} [DecidableEq α]
    (m : List (α × β)) (c : α) :
    alookup m c = none ↔ c ∉ m.map (·.1) := by
  induction m with
  | nil => simp [alookup]
  | cons p rest ih =>
    by_cases hc : p.1 = c
    · simp [alookup, hc]
    · have hc2 : ¬ c = p.1 := fun h => hc h.symm
      simp [alookup, hc, hc2, ih]

theorem mem_of_alookup_eq_some {α : Type u} {β : Type v} [DecidableEq α]
    (m : List (α × β)) (c : α) (d : β) (h : alookup m c = some d) : (c, d) ∈ m := by
  induction m with
  | nil => simp [alookup] at h
  | cons p rest ih =>
    rcases p with ⟨a, b⟩
    by_cases hc : a = c
    · simp only [alookup, hc, if_true, Option.some_inj] at h
      subst hc
      subst h
      exact List.mem_cons_self _ _
    · simp only [alookup, hc, if_false] at h
      exact List.mem_cons_of_mem _ (ih h)

theorem alookup_eq_some_of_mem {α : Type u} {β : Type v} [DecidableEq α]
    (m : List (α × β)) (c : α) (d : β) (hnd : (m.map (·.1)).Nodup)
    (hm : (c, d) ∈ m) : alookup m c = some d := by
  induction m with
  | nil => cases hm
  | cons p rest ih =>
    rw [List.map_cons] at hnd
    have hknotin := (List.nodup_cons.mp hnd).1
    have hnd2 := (List.nodup_cons.mp hnd).2
    rcases List.mem_cons.mp hm with h | h
    · rw [← h]
      simp [alookup]
    · by_cases hc : p.1 = c
      · exfalso
        apply hknotin
        rw [hc]
        have := List.mem_map_of_mem (fun x : α × β => x.1) h
        simpa using this
      · simp only [alookup, hc, if_false]
        exact ih hnd2 h

theorem mem_astore_iff {α : Type u} {β : Type v} [DecidableEq α]
    (m : List (α × β)) (k : α) (v : β) (c : α) (d : β)
    (hnd : (m.map (·.1)).Nodup) :
    (c, d) ∈ astore m k v ↔ (((c, d) ∈ m ∧ c ≠ k) ∨ (c = k ∧ d = v)) := by
  induction m with
  | nil =>
    simp only [astore, List.mem_singleton, Prod.mk.injEq]
    constructor
    · rintro ⟨h1, h2⟩; exact Or.inr ⟨h1, h2⟩
    · rintro (⟨h, _⟩ | ⟨h1, h2⟩)
      · cases h
      · exact ⟨h1, h2⟩
  | cons p rest ih =>
    rw [List.map_cons] at hnd
    have hknotin := (List.nodup_cons.mp hnd).1
    have hnd2 := (List.nodup_cons.mp hnd).2
    by_cases hk : p.1 = k
    · rw [show astore (p :: rest) k v = (k, v) :: rest from by simp [astore, hk]]
      constructor
      · intro hm
        rcases List.mem_cons.mp hm with h | h
        · exact Or.inr ⟨congrArg Prod.fst h, congrArg Prod.snd h⟩
        · refine Or.inl ⟨List.mem_cons_of_mem _ h, fun hck => ?_⟩
          apply hknotin
          rw [hk, ← hck]
          have := List.mem_map_of_mem (fun x : α × β => x.1) h
          simpa using this
      · rintro (⟨h1, h2⟩ | ⟨h1, h2⟩)
        · rcases List.mem_cons.mp h1 with h3 | h3
          · exact absurd ((congrArg Prod.fst h3).trans hk) h2
          · exact List.mem_cons_of_mem _ h3
        · subst h1
          subst h2
          exact List.mem_cons_self _ _
    · rw [show astore (p :: rest) k v = p :: astore rest k v from by simp [astore, hk]]
      constructor
      · intro hm
        rcases List.mem_cons.mp hm with h | h
        · refine Or.inl ⟨List.mem_cons.mpr (Or.inl h), fun hck => ?_⟩
          apply hk
          rw [← hck]
          exact (congrArg Prod.fst h).symm
        · rcases (ih hnd2).mp h with ⟨h1, h2⟩ | ⟨h1, h2⟩
          · exact Or.inl ⟨List.mem_cons_of_mem _ h1, h2⟩
          · exact Or.inr ⟨h1, h2⟩
      · rintro (⟨h1, h2⟩ | ⟨h1, h2⟩)
        · rcases List.mem_cons.mp h1 with h3 | h3
          · exact List.mem_cons.mpr (Or.inl h3)
          · exact List.mem_cons_of_mem _ ((ih hnd2).mpr (Or.inl ⟨h3, h2⟩))
        · exact List.mem_cons_of_mem _ ((ih hnd2).mpr (Or.inr ⟨h1, h2⟩))

theorem mem_aerase_iff {α : Type u} {β : Type v} [DecidableEq α]
    (m : List (α × β)) (k : α) (c : α) (d : β) :
    (c, d) ∈ aerase m k ↔ (c, d) ∈ m ∧ c ≠ k := by
  simp [aerase, List.mem_filter]

theorem keys_astore_absent {α : Type u} {β : Type v} [DecidableEq α]
    (m : List (α × β)) (k : α) (v : β) (h : k ∉ m.map (·.1)) :
    (astore m k v).map (·.1) = m.map (·.1) ++ [k] := by
  induction m with
  | nil => simp [astore]
  | cons p rest ih =>
    simp only [List.map_cons, List.mem_cons] at h
    push_neg at h
    have hpk : ¬ p.1 = k := fun hh => h.1 hh.symm
    rw [show astore (p :: rest) k v = p :: astore rest k v from by simp [astore, hpk]]
    simp [ih h.2]

theorem keys_astore_present {α : Type u} {β : Type v} [DecidableEq α]
    (m : List (α × β)) (k : α) (v : β) (h : k ∈ m.map (·.1)) :
    (astore m k v).map (·.1) = m.map (·.1) := by
  induction m with
  | nil => simp at h
  | cons p rest ih =>
    by_cases hk : p.1 = k
    · simp [astore, hk]
    · have h2 : k ∈ rest.map (·.1) := by
        simp only [List.map_cons, List.mem_cons] at h
        rcases h with h3 | h3
        · exact absurd h3.symm hk
        · exact h3
      simp [astore, hk, ih h2]

theorem keys_aerase_sublist {α : Type u} {β : Type v} [DecidableEq α]
    (m : List (α × β)) (k : α) :
    List.Sublist ((aerase m k).map (·.1)) (m.map (·.1)) :=
  List.Sublist.map _ (List.filter_sublist m)

theorem alookup_astore_ne {α : Type u} {β : Type v} [DecidableEq α]
    (m : List (α × β)) (k k2 : α) (v : β) (hne : k2 ≠ k) :
    alookup (astore m k v) k2 = alookup m k2 := by
  have hne2 : ¬ k = k2 := fun h => hne h.symm
  induction m with
  | nil => simp [astore, alookup, hne2]
  | cons p rest ih =>
    by_cases hk : p.1 = k
    · rw [show astore (p :: rest) k v = (k, v) :: rest from by simp [astore, hk]]
      have hpk2 : ¬ p.1 = k2 := by rw [hk]; exact hne2
      simp [alookup, hne2, hpk2]
    · rw [show astore (p :: rest) k v = p :: astore rest k v from by simp [astore, hk]]
      by_cases hk2 : p.1 = k2 <;> simp [alookup, hk2, ih]

theorem aerase_of_alookup_none {α : Type u} {β : Type v} [DecidableEq α]
    (m : List (α × β)) (k : α) (h : alookup m k = none) : aerase m k = m := by
  have hk := (alookup_none_iff_keys m k).mp h
  unfold aerase
  apply List.filter_eq_self.mpr
  intro p hp
  simp only [decide_eq_true_eq]
  intro hpk
  apply hk
  rw [← hpk]
  have := List.mem_map_of_mem (fun x : α × β => x.1) hp
  simpa using this

/-! ### Invariant preservation through one Kahn round -/

theorem cinv_k_facts {s : TopSet T} {emitted done : List Nat} {k : Nat} {ks : List Nat}
    {csDone csTodo npAcc : List Nat} {waiting : List (Nat × List (Option Nat))}
    (inv : CInv s emitted done k ks csDone csTodo npAcc waiting) :
    k < s.nodes.length ∧ k ∉ emitted ∧ k ∉ done := by
  have hkmem : k ∈ done ++ k :: ks := by simp
  refine ⟨inv.rd_valid k hkmem, inv.rd_fresh k hkmem, ?_⟩
  intro hkdone
  have hdisj := (List.nodup_append.mp inv.rd_nodup).2.2
  exact hdisj hkdone (List.mem_cons_self _ _)

theorem cinv_child_facts {s : TopSet T} (wf : TopWF s)
    {emitted done : List Nat} {k : Nat} {ks : List Nat}
    {csDone : List Nat} {c : Nat} {cs2 npAcc : List Nat}
    {waiting : List (Nat × List (Option Nat))}
    (inv : CInv s emitted done k ks csDone (c :: cs2) npAcc waiting) :
    c < s.nodes.length ∧ c ∉ emitted ∧ c ∉ done ++ k :: ks ∧ c ∉ npAcc ∧
    c ∉ csDone ∧ c ∉ cs2 ∧ some k ∈ s.ltIds c ∧
    (alookup waiting c).getD (s.ltIds c) =
      (s.ltIds c).filter (freeOfMid emitted done k csDone c) := by
  obtain ⟨hkval, hkfresh, hknotdone⟩ := cinv_k_facts inv
  have hcgt : c ∈ s.gtIds (some k) := by
    rw [inv.cs_split]
    simp
  have hcval : c < s.nodes.length := wf.gt_valid k hkval c hcgt
  have hclt : some k ∈ s.ltIds c := wf.sym1 k hkval c hcgt
  have hgtnd : (csDone ++ c :: cs2).Nodup := by
    rw [← inv.cs_split]
    exact wf.gt_nodup k hkval
  have hcd : c ∉ csDone := by
    intro hm
    have hdisj := (List.nodup_append.mp hgtnd).2.2
    exact hdisj hm (List.mem_cons_self _ _)
  have hcc : c ∉ cs2 := by
    have := (List.nodup_append.mp hgtnd).2.1
    exact (List.nodup_cons.mp this).1
  rcases hlook : alookup waiting c with _ | deps0
  · have hcem : c ∉ emitted := fun hm => hkfresh (inv.em_closed c hm k hclt)
    have hcrd : c ∉ done ++ k :: ks := fun hm => hkfresh (inv.rd_parents c hm k hclt)
    have hcacc : c ∉ npAcc := fun hm => hcd (inv.acc_k_done c hm hclt)
    have hfree := inv.untouched c hcval hcem hcrd hcacc hlook
    refine ⟨hcval, hcem, hcrd, hcacc, hcd, hcc, hclt, ?_⟩
    simp only [Option.getD_none]
    symm
    apply List.filter_eq_self.mpr
    intro p hp
    match p with
    | none => rfl
    | some j =>
      have := hfree j hp
      simp only [freeOfMid, decide_eq_true_eq]
      exact ⟨this.1, this.2, fun _ => hcd⟩
  · have hcmem := mem_of_alookup_eq_some _ _ _ hlook
    obtain ⟨hcval', hcem, hcrd, hcacc⟩ := inv.w_fresh c deps0 hcmem
    obtain ⟨hdne, hdeq⟩ := inv.w_deps c deps0 hcmem
    exact ⟨hcval, hcem, hcrd, hcacc, hcd, hcc, hclt, by simpa using hdeq⟩

theorem freeOfMid_congr_notc {emitted done : List Nat} {k : Nat} {csDone : List Nat}
    {c c2 : Nat} (hne : c2 ≠ c) (p : Option Nat) :
    freeOfMid emitted done k (csDone ++ [c]) c2 p = freeOfMid emitted done k csDone c2 p := by
  match p with
  | none => rfl
  | some j => simp [freeOfMid, List.mem_append, hne]

theorem cinv_erase_char {s : TopSet T} (wf : TopWF s)
    {emitted done : List Nat} {k : Nat} {ks : List Nat}
    {csDone : List Nat} {c : Nat} {cs2 npAcc : List Nat}
    {waiting : List (Nat × List (Option Nat))}
    (inv : CInv s emitted done k ks csDone (c :: cs2) npAcc waiting) :
    ((alookup waiting c).getD (s.ltIds c)).erase (some k) =
      (s.ltIds c).filter (freeOfMid emitted done k (csDone ++ [c]) c) := by
  obtain ⟨hcval, _, _, _, hcd, _, _, hdeq⟩ := cinv_child_facts wf inv
  rw [hdeq]
  have hfnd : ((s.ltIds c).filter (freeOfMid emitted done k csDone c)).Nodup :=
    (wf.lt_nodup c hcval).filter _
  rw [List.Nodup.erase_eq_filter hfnd, List.filter_filter]
  apply List.filter_congr
  intro p _
  match p with
  | none => simp [freeOfMid]
  | some j =>
    by_cases hj : j = k
    · subst hj
      simp [freeOfMid]
    · simp [freeOfMid, hj]

theorem keys_astore_nodup {α : Type u} {β : Type v} [DecidableEq α]
    (m : List (α × β)) (k : α) (v : β) (hnd : (m.map (·.1)).Nodup) :
    ((astore m k v).map (·.1)).Nodup := by
  by_cases h : k ∈ m.map (·.1)
  · rw [keys_astore_present m k v h]
    exact hnd
  · rw [keys_astore_absent m k v h]
    exact List.nodup_append.mpr ⟨hnd, List.nodup_singleton k,
      fun a ha hak => h ((List.mem_singleton.mp hak) ▸ ha)⟩

theorem cinv_step_empty {s : TopSet T} (wf : TopWF s)
    {emitted done : List Nat} {k : Nat} {ks : List Nat}
    {csDone : List Nat} {c : Nat} {cs2 npAcc : List Nat}
    {waiting : List (Nat × List (Option Nat))}
    (inv : CInv s emitted done k ks csDone (c :: cs2) npAcc waiting)
    (hdeps2 : ((alookup waiting c).getD (s.ltIds c)).erase (some k) = []) :
    CInv s emitted done k ks (csDone ++ [c]) cs2 (npAcc ++ [c]) (aerase waiting c) := by
  obtain ⟨hcval, hcem, hcrd, hcacc, hcd, hcc, hclt, hdeq⟩ := cinv_child_facts wf inv
  have hchar := cinv_erase_char wf inv
  rw [hchar] at hdeps2
  have hblocked : ∀ p, some p ∈ s.ltIds c → p ∈ emitted ∨ p ∈ done ∨ p = k := by
    intro p hp
    have := List.filter_eq_nil_iff.mp hdeps2 (some p) hp
    simp only [freeOfMid, decide_eq_true_eq] at this
    by_cases h1 : p ∈ emitted
    · exact Or.inl h1
    by_cases h2 : p ∈ done
    · exact Or.inr (Or.inl h2)
    by_cases h3 : p = k
    · exact Or.inr (Or.inr h3)
    exact (this ⟨h1, h2, fun hpk => absurd hpk h3⟩).elim
  refine ⟨inv.rd_valid, inv.rd_nodup, inv.rd_fresh, inv.rd_parents, ?_, ?_, ?_, ?_, ?_,
    inv.em_valid, inv.em_closed, ?_, ?_, ?_, ?_, ?_, ?_⟩
  · rw [inv.cs_split]
    simp
  · intro i hi
    rcases List.mem_append.mp hi with h | h
    · exact inv.acc_valid i h
    · rw [List.mem_singleton.mp h]
      exact hcval
  · have hdisj : ∀ a ∈ npAcc, a ∉ [c] := by
      intro a ha hac
      rw [List.mem_singleton.mp hac] at ha
      exact hcacc ha
    exact List.nodup_append.mpr ⟨inv.acc_nodup, List.nodup_singleton c, hdisj⟩
  · intro i hi
    rcases List.mem_append.mp hi with h | h
    · exact inv.acc_fresh i h
    · rw [List.mem_singleton.mp h]
      exact ⟨hcem, hcrd⟩
  · intro i hi p hp
    rcases List.mem_append.mp hi with h | h
    · exact inv.acc_parents i h p hp
    · rw [List.mem_singleton.mp h] at hp
      exact hblocked p hp
  · intro c2 deps hmem
    have h2 := (mem_aerase_iff waiting c c2 deps).mp hmem
    have := inv.w_fresh c2 deps h2.1
    refine ⟨this.1, this.2.1, this.2.2.1, ?_⟩
    intro hmem2
    rcases List.mem_append.mp hmem2 with h | h
    · exact this.2.2.2 h
    · exact h2.2 (List.mem_singleton.mp h)
  · exact inv.w_nodup.sublist (keys_aerase_sublist waiting c)
  · intro c2 deps hmem
    have h2 := (mem_aerase_iff waiting c c2 deps).mp hmem
    have := inv.w_deps c2 deps h2.1
    refine ⟨this.1, ?_⟩
    rw [this.2]
    symm
    exact List.filter_congr (fun p _ => freeOfMid_congr_notc h2.2 p)
  · intro i hi hik
    rcases List.mem_append.mp hi with h | h
    · exact List.mem_append.mpr (Or.inl (inv.acc_k_done i h hik))
    · rw [List.mem_singleton.mp h]
      simp
  · intro c2 hval hem hrd hacc hlook j hj
    have hne : c2 ≠ c := by
      intro h
      rw [h] at hacc
      exact hacc (List.mem_append.mpr (Or.inr (List.mem_singleton_self c)))
    have hlook2 : alookup waiting c2 = none := by
      rw [← alookup_aerase_ne waiting c c2 hne]
      exact hlook
    have hacc2 : c2 ∉ npAcc := fun h => hacc (List.mem_append.mpr (Or.inl h))
    exact inv.untouched c2 hval hem hrd hacc2 hlook2 j hj
  · intro c2 hc2
    rcases List.mem_append.mp hc2 with h | h
    · have hne : c2 ≠ c := fun he => hcd (he ▸ h)
      rcases inv.cs_done_touched c2 h with h2 | h2
      · exact Or.inl (List.mem_append.mpr (Or.inl h2))
      · rw [← alookup_aerase_ne waiting c c2 hne] at h2
        exact Or.inr h2
    · exact Or.inl (List.mem_append.mpr (Or.inr h))

theorem cinv_step_full {s : TopSet T} (wf : TopWF s)
    {emitted done : List Nat} {k : Nat} {ks : List Nat}
    {csDone : List Nat} {c : Nat} {cs2 npAcc : List Nat}
    {waiting : List (Nat × List (Option Nat))}
    (inv : CInv s emitted done k ks csDone (c :: cs2) npAcc waiting)
    (hdeps2 : ((alookup waiting c).getD (s.ltIds c)).erase (some k) ≠ []) :
    CInv s emitted done k ks (csDone ++ [c]) cs2 npAcc
      (astore waiting c (((alookup waiting c).getD (s.ltIds c)).erase (some k))) := by
  obtain ⟨hcval, hcem, hcrd, hcacc, hcd, hcc, hclt, hdeq⟩ := cinv_child_facts wf inv
  have hchar := cinv_erase_char wf inv
  refine ⟨inv.rd_valid, inv.rd_nodup, inv.rd_fresh, inv.rd_parents, ?_, inv.acc_valid,
    inv.acc_nodup, inv.acc_fresh, inv.acc_parents, inv.em_valid, inv.em_closed,
    ?_, ?_, ?_, ?_, ?_, ?_⟩
  · rw [inv.cs_split]
    simp
  · intro c2 deps hmem
    rcases (mem_astore_iff waiting c _ c2 deps inv.w_nodup).mp hmem with ⟨hin, _⟩ | ⟨hceq, _⟩
    · exact inv.w_fresh c2 deps hin
    · rw [hceq]
      exact ⟨hcval, hcem, hcrd, hcacc⟩
  · exact keys_astore_nodup waiting c _ inv.w_nodup
  · intro c2 deps hmem
    rcases (mem_astore_iff waiting c _ c2 deps inv.w_nodup).mp hmem with ⟨hin, hne⟩ | ⟨hceq, hdeq2⟩
    · have := inv.w_deps c2 deps hin
      refine ⟨this.1, ?_⟩
      rw [this.2]
      symm
      exact List.filter_congr (fun p _ => freeOfMid_congr_notc hne p)
    · rw [hceq, hdeq2]
      exact ⟨hdeps2, hchar⟩
  · intro i hi hik
    exact List.mem_append.mpr (Or.inl (inv.acc_k_done i hi hik))
  · intro c2 hval hem hrd hacc hlook j hj
    have hne : c2 ≠ c := by
      intro h
      rw [h, alookup_astore_self] at hlook
      cases hlook
    rw [alookup_astore_ne waiting c c2 _ hne] at hlook
    exact inv.untouched c2 hval hem hrd hacc hlook j hj
  · intro c2 hc2
    rcases List.mem_append.mp hc2 with h | h
    · have hne : c2 ≠ c := fun he => hcd (he ▸ h)
      rcases inv.cs_done_touched c2 h with h2 | h2
      · exact Or.inl h2
      · rw [← alookup_astore_ne waiting c c2 _ hne] at h2
        exact Or.inr h2
    · rw [List.mem_singleton.mp h]
      exact Or.inr (by rw [alookup_astore_self]; intro hh; cases hh)

theorem processChildren_inv {s : TopSet T} (wf : TopWF s)
    {emitted done : List Nat} {k : Nat} {ks : List Nat} :
    ∀ (csTodo csDone npAcc : List Nat) (waiting : List (Nat × List (Option Nat))),
    CInv s emitted done k ks csDone csTodo npAcc waiting →
    CInv s emitted done k ks (csDone ++ csTodo) []
      (TopSet.processChildren s k csTodo waiting npAcc).1
      (TopSet.processChildren s k csTodo waiting npAcc).2 := by
  intro csTodo
  induction csTodo with
  | nil =>
    intro csDone npAcc waiting inv
    simpa [TopSet.processChildren] using inv
  | cons c cs ih =>
    intro csDone npAcc waiting inv
    by_cases h : ((alookup waiting c).getD (s.ltIds c)).erase (some k) = []
    · have hstep := cinv_step_empty wf inv h
      have := ih (csDone ++ [c]) (npAcc ++ [c]) (aerase waiting c) hstep
      simpa [TopSet.processChildren, h] using this
    · have hstep := cinv_step_full wf inv h
      have := ih (csDone ++ [c]) npAcc
        (astore waiting c (((alookup waiting c).getD (s.ltIds c)).erase (some k))) hstep
      simpa [TopSet.processChildren, h] using this

theorem cinv_start {s : TopSet T}
    {emitted done : List Nat} {k : Nat} {ks npAcc : List Nat}
    {waiting : List (Nat × List (Option Nat))}
    (inv : RInv s emitted done (k :: ks) npAcc waiting) :
    CInv s emitted done k ks [] (s.gtIds (some k)) npAcc waiting := by
  have hkmem : k ∈ done ++ k :: ks := by simp
  refine ⟨inv.rd_valid, inv.rd_nodup, inv.rd_fresh, inv.rd_parents, (List.nil_append _).symm,
    inv.acc_valid, inv.acc_nodup, inv.acc_fresh, ?_, inv.em_valid, inv.em_closed,
    inv.w_fresh, inv.w_nodup, ?_, ?_, inv.untouched, ?_⟩
  · intro i hi p hp
    rcases inv.acc_parents i hi p hp with h | h
    · exact Or.inl h
    · exact Or.inr (Or.inl h)
  · intro c deps hmem
    have := inv.w_deps c deps hmem
    refine ⟨this.1, ?_⟩
    rw [this.2]
    apply List.filter_congr
    intro p _
    match p with
    | none => rfl
    | some j => simp [freeOf, freeOfMid]
  · intro i hi hik
    rcases inv.acc_parents i hi k hik with h | h
    · exact absurd h (inv.rd_fresh k hkmem)
    · have hdisj := (List.nodup_append.mp inv.rd_nodup).2.2
      exact absurd (List.mem_cons_self _ _) (hdisj h)
  · intro c hc
    cases hc

theorem rinv_end {s : TopSet T} (wf : TopWF s)
    {emitted done : List Nat} {k : Nat} {ks npAcc : List Nat}
    {waiting : List (Nat × List (Option Nat))}
    (inv : CInv s emitted done k ks (s.gtIds (some k)) [] npAcc waiting) :
    RInv s emitted (done ++ [k]) ks npAcc waiting := by
  have hre : done ++ [k] ++ ks = done ++ k :: ks := by simp
  have hkval : k < s.nodes.length := (cinv_k_facts inv).1
  refine ⟨?_, ?_, ?_, ?_, inv.acc_valid, inv.acc_nodup, ?_, ?_, inv.em_valid,
    inv.em_closed, ?_, inv.w_nodup, ?_, ?_⟩
  · rw [hre]
    exact inv.rd_valid
  · rw [hre]
    exact inv.rd_nodup
  · rw [hre]
    exact inv.rd_fresh
  · rw [hre]
    exact inv.rd_parents
  · intro i hi
    have := inv.acc_fresh i hi
    rw [hre]
    exact this
  · intro i hi p hp
    rcases inv.acc_parents i hi p hp with h | h | h
    · exact Or.inl h
    · exact Or.inr (List.mem_append.mpr (Or.inl h))
    · exact Or.inr (List.mem_append.mpr (Or.inr (List.mem_singleton.mpr h)))
  · intro c deps hmem
    have := inv.w_fresh c deps hmem
    rw [hre]
    exact this
  · intro c deps hmem
    have hw := inv.w_deps c deps hmem
    have hcval := (inv.w_fresh c deps hmem).1
    refine ⟨hw.1, ?_⟩
    rw [hw.2]
    apply List.filter_congr
    intro p hp
    match p with
    | none => rfl
    | some j =>
      by_cases hj : j = k
      · subst hj
        have hcgt : c ∈ s.gtIds (some j) := (wf.sym2 c hcval j hp).1
        simp [freeOf, freeOfMid, hcgt]
      · simp [freeOf, freeOfMid, hj]
  · intro c hval hem hrd hacc hlook j hj
    have hrd2 : c ∉ done ++ k :: ks := by
      rw [← hre]
      exact hrd
    have hfree := inv.untouched c hval hem hrd2 hacc hlook
    have hjk : j ≠ k := by
      intro h
      subst h
      have hcgt : c ∈ s.gtIds (some j) := (wf.sym2 c hval j hj).1
      rcases inv.cs_done_touched c hcgt with h2 | h2
      · exact hacc h2
      · exact h2 hlook
    have := hfree j hj
    refine ⟨this.1, ?_⟩
    intro hmem
    rcases List.mem_append.mp hmem with h | h
    · exact this.2 h
    · exact hjk (List.mem_singleton.mp h)

theorem processLayer_inv {s : TopSet T} (wf : TopWF s) {emitted : List Nat} :
    ∀ (ks done npAcc : List Nat) (waiting : List (Nat × List (Option Nat))),
    RInv s emitted done ks npAcc waiting →
    RInv s emitted (done ++ ks) []
      (TopSet.processLayer s ks waiting npAcc).1
      (TopSet.processLayer s ks waiting npAcc).2 := by
  intro ks
  induction ks with
  | nil =>
    intro done npAcc waiting inv
    simpa [TopSet.processLayer] using inv
  | cons k ks2 ih =>
    intro done npAcc waiting inv
    have hc := processChildren_inv wf (s.gtIds (some k)) [] npAcc waiting (cinv_start inv)
    rw [List.nil_append] at hc
    have hr := rinv_end wf hc
    have := ih (done ++ [k])
      (TopSet.processChildren s k (s.gtIds (some k)) waiting npAcc).1
      (TopSet.processChildren s k (s.gtIds (some k)) waiting npAcc).2 hr
    simpa [TopSet.processLayer] using this

theorem rinv_next_round {s : TopSet T}
    {emitted noPrev npFinal : List Nat}
    {wFinal : List (Nat × List (Option Nat))}
    (inv : RInv s emitted noPrev [] npFinal wFinal) :
    RInv s (emitted ++ noPrev) [] npFinal [] wFinal := by
  have hnp : noPrev ++ ([] : List Nat) = noPrev := List.append_nil _
  refine ⟨?_, ?_, ?_, ?_, ?_, List.nodup_nil, ?_, ?_, ?_, ?_, ?_, inv.w_nodup, ?_, ?_⟩
  · intro i hi
    rw [List.nil_append] at hi
    exact inv.acc_valid i hi
  · rw [List.nil_append]
    exact inv.acc_nodup
  · intro i hi
    rw [List.nil_append] at hi
    have h1 := inv.acc_fresh i hi
    rw [hnp] at h1
    intro hmem
    rcases List.mem_append.mp hmem with h | h
    · exact h1.1 h
    · exact h1.2 h
  · intro i hi p hp
    rw [List.nil_append] at hi
    rcases inv.acc_parents i hi p hp with h | h
    · exact List.mem_append.mpr (Or.inl h)
    · exact List.mem_append.mpr (Or.inr h)
  · intro i hi
    cases hi
  · intro i hi
    cases hi
  · intro i hi
    cases hi
  · intro e he
    rcases List.mem_append.mp he with h | h
    · exact inv.em_valid e h
    · exact inv.rd_valid e (by rw [hnp]; exact h)
  · intro e he p hp
    rcases List.mem_append.mp he with h | h
    · exact List.mem_append.mpr (Or.inl (inv.em_closed e h p hp))
    · exact List.mem_append.mpr
        (Or.inl (inv.rd_parents e (by rw [hnp]; exact h) p hp))
  · intro c deps hmem
    have := inv.w_fresh c deps hmem
    rw [hnp] at this
    refine ⟨this.1, ?_, ?_, ?_⟩
    · intro hmem2
      rcases List.mem_append.mp hmem2 with h | h
      · exact this.2.1 h
      · exact this.2.2.1 h
    · rw [List.nil_append]
      exact this.2.2.2
    · intro hi
      cases hi
  · intro c deps hmem
    have := inv.w_deps c deps hmem
    refine ⟨this.1, ?_⟩
    rw [this.2]
    apply List.filter_congr
    intro p _
    match p with
    | none => rfl
    | some j => simp [freeOf, List.mem_append]
  · intro c hval hem hrd hacc hlook j hj
    have hem2 : c ∉ emitted := fun h => hem (List.mem_append.mpr (Or.inl h))
    have hrd3 : c ∉ noPrev ++ ([] : List Nat) := by
      rw [hnp]
      intro h
      exact hem (List.mem_append.mpr (Or.inr h))
    have hacc2 : c ∉ npFinal := by
      rw [List.nil_append] at hrd
      exact hrd
    have := inv.untouched c hval hem2 hrd3 hacc2 hlook j hj
    refine ⟨?_, fun h => (List.not_mem_nil j) h⟩
    intro hmem
    rcases List.mem_append.mp hmem with h | h
    · exact this.1 h
    · exact this.2 h

theorem rinv_init {s : TopSet T} (wf : TopWF s) :
    RInv s [] [] s.rootGt [] [] := by
  refine ⟨?_, ?_, ?_, ?_, ?_, List.nodup_nil, ?_, ?_, ?_, ?_, ?_, List.nodup_nil, ?_, ?_⟩
  · intro i hi
    rw [List.nil_append] at hi
    exact wf.root_valid i hi
  · rw [List.nil_append]
    exact wf.root_nodup
  · intro i _ h
    cases h
  · intro i hi p hp
    rw [List.nil_append] at hi
    rw [wf.root_only i hi] at hp
    simp at hp
  · intro i hi
    cases hi
  · intro i hi
    cases hi
  · intro i hi
    cases hi
  · intro e he
    cases he
  · intro e he
    cases he
  · intro c deps hmem
    cases hmem
  · intro c deps hmem
    cases hmem
  · intro c _ _ _ _ _ j _
    exact ⟨fun h => (List.not_mem_nil j) h, fun h => (List.not_mem_nil j) h⟩

theorem layersGoIds_roundsOK {s : TopSet T} (wf : TopWF s) :
    ∀ (fuel : Nat) (noPrev : List Nat) (waiting : List (Nat × List (Option Nat)))
      (emitted : List Nat),
    RInv s emitted [] noPrev [] waiting →
    RoundsOK s emitted (TopSet.layersGoIds s fuel noPrev waiting) := by
  intro fuel
  induction fuel with
  | zero =>
    intro noPrev waiting emitted _
    simp [TopSet.layersGoIds, RoundsOK]
  | succ fuel2 ih =>
    intro noPrev waiting emitted inv
    by_cases h : noPrev = []
    · simp [TopSet.layersGoIds, h, RoundsOK]
    · have hstep := processLayer_inv wf noPrev [] [] waiting inv
      rw [List.nil_append] at hstep
      have hnext := rinv_next_round hstep
      have hrec := ih (TopSet.processLayer s noPrev waiting []).1
        (TopSet.processLayer s noPrev waiting []).2 (emitted ++ noPrev) hnext
      simp only [TopSet.layersGoIds, h, if_false, RoundsOK]
      refine ⟨?_, ?_, hrec⟩
      · intro i hi
        have hi2 : i ∈ ([] : List Nat) ++ noPrev := by
          rw [List.nil_append]
          exact hi
        exact ⟨inv.rd_valid i hi2, inv.rd_fresh i hi2, inv.rd_parents i hi2⟩
      · have := inv.rd_nodup
        rw [List.nil_append] at this
        exact this

theorem layersIds_roundsOK {s : TopSet T} (wf : TopWF s) :
    RoundsOK s [] (TopSet.layersIds s) :=
  layersGoIds_roundsOK wf (s.nodes.length + 1) s.rootGt [] [] (rinv_init wf)

theorem gtPath_mem_closed {s : TopSet T} (wf : TopWF s) (E : List Nat)
    (hclosed : ∀ e ∈ E, ∀ q, some q ∈ s.ltIds e → q ∈ E) :
    ∀ p t : Nat, GtPath s p t → p < s.nodes.length →
      (∀ q, some q ∈ s.ltIds t → q ∈ E) → p ∈ E := by
  intro p t hpath
  induction hpath with
  | single h =>
    intro hp hpar
    exact hpar _ (wf.sym1 _ hp _ h)
  | step h hp ih =>
    rename_i i j k
    intro hi hpar
    have hj : j < s.nodes.length := wf.gt_valid i hi j h
    have hjE : j ∈ E := ih hj hpar
    exact hclosed j hjE i (wf.sym1 i hi j h)

theorem roundsOK_no_path {s : TopSet T} (wf : TopWF s) :
    ∀ (R : List (List Nat)) (em : List Nat), RoundsOK s em R →
    (∀ e ∈ em, ∀ q, some q ∈ s.ltIds e → q ∈ em) →
    ∀ L ∈ R, ∀ i ∈ L, ∀ j ∈ L, ¬ GtPath s i j := by
  intro R
  induction R with
  | nil =>
    intro em _ _ L hL
    cases hL
  | cons L0 R2 ih =>
    intro em hOK hclosed L hL i hi j hj hpath
    obtain ⟨hL0, hnd, hrest⟩ := hOK
    rcases List.mem_cons.mp hL with hL | hL
    · subst hL
      have hji := hL0 j hj
      have hii := hL0 i hi
      exact hii.2.1 (gtPath_mem_closed wf em hclosed i j hpath hii.1 hji.2.2)
    · have hclosed2 : ∀ e ∈ em ++ L0, ∀ q, some q ∈ s.ltIds e → q ∈ em ++ L0 := by
        intro e he q hq
        rcases List.mem_append.mp he with h | h
        · exact List.mem_append.mpr (Or.inl (hclosed e h q hq))
        · exact List.mem_append.mpr (Or.inl ((hL0 e h).2.2 q hq))
      exact ih (em ++ L0) hrest hclosed2 L hL i hi j hj hpath

theorem gtReach_sound {s : TopSet T} :
    ∀ (fuel i j : Nat), gtReach s fuel i j = true → GtPath s i j := by
  intro fuel
  induction fuel with
  | zero =>
    intro i j h
    simp [gtReach] at h
  | succ f ih =>
    intro i j h
    simp only [gtReach, List.any_eq_true] at h
    obtain ⟨m, hm, hcase⟩ := h
    by_cases hmj : m = j
    · exact hmj ▸ GtPath.single hm
    · simp only [hmj, decide_False, Bool.false_or] at hcase
      exact GtPath.step hm (ih m j hcase)

/-- **C6** (amended): for a well-formed topological set whose `gt` edges
path-connect every pair of stored elements that the element order
relates, every emitted layer is an antichain: the order relates no two
of its members.  (Maximality of the antichains is false, and without the
path hypothesis even this fails: see the counterexample.) -/
theorem c6_amended_layers_antichain {s : TopSet T} (lt : T → T → Bool) (wf : TopWF s)
    (hpath : ∀ i j x y, s.inner? i = some x → s.inner? j = some y →
      lt x y = true → GtPath s i j ∨ GtPath s j i) :
    ∀ L ∈ TopSet.layers s, ∀ x ∈ L, ∀ y ∈ L, lt x y = false := by
  intro L hL x hx y hy
  obtain ⟨Lids, hLids, rfl⟩ := List.mem_map.mp hL
  obtain ⟨i, hiL, hix⟩ := List.mem_filterMap.mp hx
  obtain ⟨j, hjL, hjy⟩ := List.mem_filterMap.mp hy
  cases hq : lt x y
  · rfl
  · exfalso
    have hnopath := roundsOK_no_path wf (TopSet.layersIds s) [] (layersIds_roundsOK wf)
      (fun e he => absurd he (List.not_mem_nil e)) Lids hLids
    rcases hpath i j x y hix hjy hq with h | h
    · exact hnopath i hiL j hjL h
    · exact hnopath j hjL i hiL h

theorem c6_amended_layers_antichain_witness :
    tsM.layers = [[candM1, candMD], [candM2], [candM3]] ∧
    candLt ClsM.sub ClsM.m3 candM1 candMD = false := by
  have hsym2 : ∀ c, c < tsM.nodes.length → ∀ q ∈ tsM.ltIds c,
      q.all (fun p => decide (c ∈ tsM.gtIds (some p) ∧ p < tsM.nodes.length)) = true := by
    decide
  have wf : TopWF tsM :=
    ⟨by decide, by decide, by decide, by decide, by decide, by decide,
     fun c hc p hp => of_decide_eq_true (hsym2 c hc (some p) hp), by decide, by decide⟩
  have hpath : ∀ i j x y, tsM.inner? i = some x → tsM.inner? j = some y →
      candLt ClsM.sub ClsM.m3 x y = true → GtPath tsM i j ∨ GtPath tsM j i := by
    intro i j x y hx hy hlt
    have hi : i < tsM.nodes.length := by
      by_contra hcon
      rw [TopSet.inner?, List.get?_eq_none.mpr (Nat.le_of_not_lt hcon)] at hx
      cases hx
    have hj : j < tsM.nodes.length := by
      by_contra hcon
      rw [TopSet.inner?, List.get?_eq_none.mpr (Nat.le_of_not_lt hcon)] at hy
      cases hy
    have hlt2 : innerLt tsM (candLt ClsM.sub ClsM.m3) i j = true := by
      unfold innerLt
      rw [hx, hy]
      exact hlt
    have hcore : ∀ a, a < tsM.nodes.length → ∀ b, b < tsM.nodes.length →
        innerLt tsM (candLt ClsM.sub ClsM.m3) a b = true →
        (gtReach tsM 5 a b || gtReach tsM 5 b a) = true := by decide
    have h2 := hcore i hi j hj hlt2
    cases hgr : gtReach tsM 5 i j
    · rw [hgr, Bool.false_or] at h2
      exact Or.inr (gtReach_sound 5 j i h2)
    · exact Or.inl (gtReach_sound 5 i j hgr)
  exact ⟨by decide,
    c6_amended_layers_antichain (candLt ClsM.sub ClsM.m3) wf hpath
      [candM1, candMD] (by decide) candM1 (by decide) candMD (by decide)⟩

/-! ### Completeness of the insertion walk on a guaranteed chain (claim C4) -/

theorem inner?_valid {s : TopSet T} {i : Nat} {v : T} (h : s.inner? i = some v) :
    i < s.nodes.length := by
  rcases hg : s.nodes.get? i with _ | n
  · rw [TopSet.inner?, hg] at h
    cases h
  · obtain ⟨hlt, _⟩ := List.get?_eq_some.mp hg
    exact hlt

theorem chainTo_suffix {lt : T → T → Bool} {x : T} {s : TopSet T} :
    ∀ (pre l2 : List (Option Nat)) (y : Nat),
    ChainTo lt x s (pre ++ l2) y → l2 ≠ [] → ChainTo lt x s l2 y := by
  intro pre
  induction pre with
  | nil =>
    intro l2 y h _
    exact h
  | cons a pre2 ih =>
    intro l2 y h hne
    match hp : pre2 ++ l2 with
    | [] =>
      rcases List.append_eq_nil.mp hp with ⟨_, h2⟩
      exact absurd h2 hne
    | b :: rest =>
      rw [List.cons_append, hp] at h
      exact ih l2 y (hp ▸ h.2) hne

theorem scanChildren_none_of_equiv {lt le : T → T → Bool} {x yv : T} {s : TopSet T}
    {ynode : Nat} (hyv : s.inner? ynode = some yv) (hyx : lt yv x = false)
    (hxy : lt x yv = false) (hle : le x yv = true) :
    ∀ l : List Nat, ynode ∈ l → TopSet.scanChildren lt le x s l = none := by
  intro l
  induction l with
  | nil =>
    intro h
    cases h
  | cons k ks ih =>
    intro hmem
    by_cases hk : k = ynode
    · subst hk
      simp [TopSet.scanChildren, hyv, hyx, hxy, hle]
    · have hks : ynode ∈ ks := by
        rcases List.mem_cons.mp hmem with h | h
        · exact absurd h.symm hk
        · exact h
      have ihv := ih hks
      rcases hik : s.inner? k with _ | ki
      · simp only [TopSet.scanChildren, hik]
        exact ihv
      · simp only [TopSet.scanChildren, hik, ihv]
        split <;> simp

theorem scanChildren_sub_complete {lt le : T → T → Bool} {x : T} {s : TopSet T} :
    ∀ (l : List Nat) (subs dcs : List Nat) (b : Bool),
    TopSet.scanChildren lt le x s l = some (subs, dcs, b) →
    ∀ (k : Nat) (v : T), k ∈ l → s.inner? k = some v → lt v x = true → k ∈ subs := by
  intro l
  induction l with
  | nil =>
    intro subs dcs b _ k v hk
    cases hk
  | cons j js ih =>
    intro subs dcs b hscan k v hk hkv hklt
    rcases hj : s.inner? j with _ | ji
    · simp only [TopSet.scanChildren, hj] at hscan
      rcases List.mem_cons.mp hk with h | h
      · rw [h, hj] at hkv
        cases hkv
      · exact ih subs dcs b hscan k v h hkv hklt
    · simp only [TopSet.scanChildren, hj] at hscan
      by_cases h1 : lt ji x = true
      · rw [if_pos h1] at hscan
        rcases hrest : TopSet.scanChildren lt le x s js with _ | r
        · rw [hrest] at hscan
          cases hscan
        · obtain ⟨s2, d2, b2⟩ := r
          rw [hrest] at hscan
          simp only [Option.some.injEq, Prod.mk.injEq] at hscan
          obtain ⟨rfl, rfl, rfl⟩ := hscan
          rcases List.mem_cons.mp hk with h | h
          · rw [h]
            exact List.mem_cons_self _ _
          · exact List.mem_cons_of_mem _ (ih s2 d2 b2 hrest k v h hkv hklt)
      · rw [if_neg h1] at hscan
        by_cases h2 : lt x ji = true
        · rw [if_pos h2] at hscan
          rcases hrest : TopSet.scanChildren lt le x s js with _ | r
          · rw [hrest] at hscan
            cases hscan
          · obtain ⟨s2, d2, b2⟩ := r
            rw [hrest] at hscan
            simp only [Option.some.injEq, Prod.mk.injEq] at hscan
            obtain ⟨rfl, rfl, rfl⟩ := hscan
            rcases List.mem_cons.mp hk with h | h
            · rw [h, hj] at hkv
              injection hkv with hv
              rw [← hv] at hklt
              exact absurd hklt h1
            · exact ih s2 d2 b2 hrest k v h hkv hklt
        · rw [if_neg h2] at hscan
          by_cases h3 : le x ji = true
          · rw [if_pos h3] at hscan
            cases hscan
          · rw [if_neg h3] at hscan
            rcases List.mem_cons.mp hk with h | h
            · rw [h, hj] at hkv
              injection hkv with hv
              rw [← hv] at hklt
              exact absurd hklt h1
            · exact ih subs dcs b hscan k v h hkv hklt

theorem walkGo_none_of_chain {lt le : T → T → Bool} {x yv : T} {s : TopSet T} {ynode : Nat}
    (hyv : s.inner? ynode = some yv) (hyx : lt yv x = false)
    (hxy : lt x yv = false) (hle : le x yv = true) :
    ∀ (fuel : Nat) (queue seen dps : List (Option Nat)) (dcs : List Nat)
      (p : Option Nat) (chR : List (Option Nat)),
    ChainTo lt x s (p :: chR) ynode → (p :: chR).Nodup →
    p ∈ queue → TopSet.validRef s p → (∀ e ∈ p :: chR, e ∉ seen) →
    TopSet.walkGo lt le x s fuel queue seen dps dcs = none := by
  intro fuel
  induction fuel with
  | zero =>
    intro queue seen dps dcs p chR _ _ _ _ _
    rfl
  | succ f ih =>
    intro queue seen dps dcs p chR hch hnd hpq hpv hunseen
    rcases queue with _ | ⟨pp, rest⟩
    · exact absurd hpq (List.not_mem_nil p)
    simp only [TopSet.walkGo]
    by_cases hseen : pp ∈ seen
    · rw [if_pos hseen]
      have hppne : p ≠ pp := fun h => (hunseen p (List.mem_cons_self _ _)) (h ▸ hseen)
      have hprest : p ∈ rest := by
        rcases List.mem_cons.mp hpq with h | h
        · exact absurd h hppne
        · exact h
      exact ih rest seen dps dcs p chR hch hnd hprest hpv hunseen
    · rw [if_neg hseen]
      by_cases hval : TopSet.validRef s pp
      swap
      · rw [if_neg hval]
        have hppne : p ≠ pp := fun h => hval (h ▸ hpv)
        have hprest : p ∈ rest := by
          rcases List.mem_cons.mp hpq with h | h
          · exact absurd h hppne
          · exact h
        exact ih rest seen dps dcs p chR hch hnd hprest hpv hunseen
      · rw [if_pos hval]
        by_cases hpp : pp ∈ p :: chR
        swap
        · split
          · rfl
          · rename_i subs newDcs anySub hscan
            have hppne : p ≠ pp := fun h => hpp (h ▸ List.mem_cons_self _ _)
            have hprest : p ∈ rest := by
              rcases List.mem_cons.mp hpq with h | h
              · exact absurd h hppne
              · exact h
            apply ih _ _ _ _ p chR hch hnd (List.mem_append.mpr (Or.inl hprest)) hpv
            intro e he hmem
            rcases List.mem_cons.mp hmem with h | h
            · exact hpp (h ▸ he)
            · exact hunseen e he h
        · obtain ⟨pre, suf, hsplit⟩ := List.append_of_mem hpp
          have hchsuf : ChainTo lt x s (pp :: suf) ynode :=
            chainTo_suffix pre (pp :: suf) ynode (hsplit ▸ hch) (by simp)
          rcases suf with _ | ⟨q, suf2⟩
          · have hymem : ynode ∈ s.gtIds pp := hchsuf
            rw [scanChildren_none_of_equiv hyv hyx hxy hle _ hymem]
          · obtain ⟨⟨qi, v, rfl, hqi, hv, hvlt⟩, hch2⟩ := hchsuf
            split
            · rfl
            · rename_i subs newDcs anySub hscan
              have hqsub : qi ∈ subs :=
                scanChildren_sub_complete _ subs newDcs anySub hscan qi v hqi hv hvlt
              have hnds : (pp :: some qi :: suf2).Nodup := by
                have hsub : List.Sublist (pp :: some qi :: suf2) (p :: chR) := by
                  rw [hsplit]
                  exact List.sublist_append_right pre _
                exact hnd.sublist hsub
              have hppnot : pp ∉ some qi :: suf2 := (List.nodup_cons.mp hnds).1
              apply ih _ _ _ _ (some qi) suf2 hch2 (List.nodup_cons.mp hnds).2 ?_
                (inner?_valid hv) ?_
              · exact List.mem_append.mpr
                  (Or.inr (List.mem_map.mpr ⟨qi, hqsub, rfl⟩))
              · intro e he hmem
                rcases List.mem_cons.mp hmem with h | h
                · exact hppnot (h ▸ he)
                · refine hunseen e ?_ h
                  rw [hsplit]
                  exact List.mem_append.mpr (Or.inr (List.mem_cons_of_mem pp he))

/-! ### Reflexivity of `cmp_key` under an antisymmetric subclass relation -/

theorem similarGo_spec :
    ∀ (xs : List (Option Int)) (ret v : Int), similarGo ret xs = some v →
    (ret = 0 ∨ v = ret) ∧ ∀ w : Int, some w ∈ xs → w ≠ 0 → v = w := by
  intro xs
  induction xs with
  | nil =>
    intro ret v h
    injection h with h2
    exact ⟨Or.inr h2.symm, fun w hw => absurd hw (List.not_mem_nil _)⟩
  | cons o rest ih =>
    intro ret v h
    match o with
    | none => cases h
    | some i =>
      rw [similarGo] at h
      by_cases h0 : ret = 0
      · rw [if_pos h0] at h
        have hr := ih i v h
        refine ⟨Or.inl h0, ?_⟩
        intro w hw hwne
        rcases List.mem_cons.mp hw with hh | hh
        · injection hh with hh2
          rcases hr.1 with hi | hi
          · exact absurd (hh2.trans hi) hwne
          · exact hi.trans hh2.symm
        · exact hr.2 w hh hwne
      · rw [if_neg h0] at h
        by_cases hi : i = 0
        · rw [if_pos hi] at h
          have hr := ih ret v h
          have hv : v = ret := hr.1.resolve_left h0
          refine ⟨Or.inr hv, ?_⟩
          intro w hw hwne
          rcases List.mem_cons.mp hw with hh | hh
          · injection hh with hh2
            exact absurd (hh2.trans hi) hwne
          · exact hr.2 w hh hwne
        · by_cases hri : ret ≠ i
          · rw [if_neg hi, if_pos hri] at h
            cases h
          · rw [if_neg hi, if_neg hri] at h
            have heq : ret = i := not_ne_iff.mp hri
            have hr := ih ret v h
            have hv : v = ret := hr.1.resolve_left h0
            refine ⟨Or.inr hv, ?_⟩
            intro w hw hwne
            rcases List.mem_cons.mp hw with hh | hh
            · injection hh with hh2
              exact hv.trans (heq.trans hh2.symm)
            · exact hr.2 w hh hwne

theorem similarGo_none_mem :
    ∀ (xs : List (Option Int)) (ret : Int), none ∈ xs → similarGo ret xs = none := by
  intro xs
  induction xs with
  | nil =>
    intro ret h
    cases h
  | cons o rest ih =>
    intro ret h
    match o with
    | none => rfl
    | some i =>
      have hr : (none : Option Int) ∈ rest := by
        rcases List.mem_cons.mp h with hh | hh
        · cases hh
        · exact hh
      rw [similarGo]
      by_cases h0 : ret = 0
      · rw [if_pos h0]
        exact ih i hr
      · rw [if_neg h0]
        by_cases hi : i = 0
        · rw [if_pos hi]
          exact ih ret hr
        · by_cases hri : ret ≠ i
          · rw [if_neg hi, if_pos hri]
          · rw [if_neg hi, if_neg hri]
            exact ih ret hr

theorem similarGo_all_zero :
    ∀ xs : List (Option Int), (∀ o ∈ xs, o = some 0) → similarGo 0 xs = some 0 := by
  intro xs
  induction xs with
  | nil =>
    intro _
    rfl
  | cons o rest ih =>
    intro h
    rw [h o (List.mem_cons_self _ _)]
    rw [similarGo, if_pos rfl]
    exact ih (fun o2 ho2 => h o2 (List.mem_cons_of_mem _ ho2))

theorem cmp_types_self {issub : C → C → Bool} (c : C) :
    cmp_types issub c c = some 0 := by
  simp [cmp_types]

theorem cmp_types_antisymm {issub : C → C → Bool}
    (hanti : ∀ a b, issub a b = true → issub b a = true → a = b)
    {r l : C} {w : Int} (h : cmp_types issub r l = some w) (hw : w ≠ 0) :
    cmp_types issub l r = some (-w) := by
  unfold cmp_types at h ⊢
  by_cases he : r = l
  · rw [if_pos he] at h
    injection h with h2
    exact absurd h2.symm hw
  · rw [if_neg he] at h
    rw [if_neg (fun h2 => he h2.symm)]
    by_cases h1 : issub r l = true
    · rw [if_pos h1] at h
      injection h with h2
      have h2f : issub l r = false := by
        cases hq : issub l r
        · rfl
        · exact absurd (hanti r l h1 hq) he
      rw [if_neg (by simp [h2f]), if_pos h1, ← h2]
      decide
    · rw [if_neg h1] at h
      by_cases h2 : issub l r = true
      · rw [if_pos h2] at h
        injection h with h3
        rw [if_pos h2, ← h3]
      · rw [if_neg h2] at h
        cases h

theorem tvar_self_similar {issub : C → C → Bool}
    (hanti : ∀ a b, issub a b = true → issub b a = true → a = b)
    (cs : List C) (v : Int)
    (h : similar (cs.map (fun c =>
        (similar (cs.map (fun c2 => cmp_types issub c2 c))).map (fun i => -i))) = some v) :
    v = 0 := by
  by_contra hv
  rw [similar] at h
  have hout := similarGo_spec _ 0 v h
  have hex : ∃ c1 ∈ cs,
      (similar (cs.map (fun c2 => cmp_types issub c2 c1))).map (fun i => -i) ≠ some 0 := by
    by_contra hall
    push_neg at hall
    have hz := similarGo_all_zero _ (fun o ho => by
      obtain ⟨c1, hc1, rfl⟩ := List.mem_map.mp ho
      exact hall c1 hc1)
    rw [hz] at h
    injection h with h2
    exact hv h2.symm
  obtain ⟨c1, hc1, hne0⟩ := hex
  rcases hin : similar (cs.map (fun c2 => cmp_types issub c2 c1)) with _ | u
  · have hmemn : (none : Option Int) ∈ cs.map (fun c =>
        (similar (cs.map (fun c2 => cmp_types issub c2 c))).map (fun i => -i)) :=
      List.mem_map.mpr ⟨c1, hc1, by rw [hin]; rfl⟩
    rw [similarGo_none_mem _ 0 hmemn] at h
    cases h
  · have hu0 : u ≠ 0 := by
      intro h0
      rw [hin, h0] at hne0
      exact hne0 rfl
    have hventry : v = -u := by
      refine hout.2 (-u) ?_ (by omega)
      exact List.mem_map.mpr ⟨c1, hc1, by rw [hin]; rfl⟩
    have hex2 : ∃ c2 ∈ cs, cmp_types issub c2 c1 ≠ some 0 := by
      by_contra hall
      push_neg at hall
      have hz := similarGo_all_zero _ (fun o ho => by
        obtain ⟨c2, hc2, rfl⟩ := List.mem_map.mp ho
        exact hall c2 hc2)
      rw [similar, hz] at hin
      injection hin with h2
      exact hu0 h2.symm
    obtain ⟨c2, hc2, hc2ne⟩ := hex2
    rcases hct : cmp_types issub c2 c1 with _ | w
    · have hmemn : (none : Option Int) ∈ cs.map (fun c2 => cmp_types issub c2 c1) :=
        List.mem_map.mpr ⟨c2, hc2, hct⟩
      rw [similar, similarGo_none_mem _ 0 hmemn] at hin
      cases hin
    · have hw0 : w ≠ 0 := by
        intro h0
        rw [h0] at hct
        exact hc2ne hct
      have hwu : u = w := by
        rw [similar] at hin
        exact (similarGo_spec _ 0 u hin).2 w (List.mem_map.mpr ⟨c2, hc2, hct⟩) hw0
      have hrev : cmp_types issub c1 c2 = some (-w) := cmp_types_antisymm hanti hct hw0
      rcases hin2 : similar (cs.map (fun c3 => cmp_types issub c3 c2)) with _ | u2
      · have hmemn : (none : Option Int) ∈ cs.map (fun c =>
            (similar (cs.map (fun c3 => cmp_types issub c3 c))).map (fun i => -i)) :=
          List.mem_map.mpr ⟨c2, hc2, by rw [hin2]; rfl⟩
        rw [similarGo_none_mem _ 0 hmemn] at h
        cases h
      · have hu2 : u2 = -w := by
          rw [similar] at hin2
          exact (similarGo_spec _ 0 u2 hin2).2 (-w)
            (List.mem_map.mpr ⟨c1, hc1, hrev⟩) (by omega)
        have hv2 : v = -u2 := by
          refine hout.2 (-u2) ?_ (by omega)
          exact List.mem_map.mpr ⟨c2, hc2, by rw [hin2]; rfl⟩
        omega

theorem cmp_type_hint_self {issub : C → C → Bool}
    (hanti : ∀ a b, issub a b = true → issub b a = true → a = b)
    (obj : C) (h : Hint C) :
    cmp_type_hint issub obj h h = some 0 ∨ cmp_type_hint issub obj h h = none := by
  match h with
  | .cls c =>
    left
    simp [cmp_type_hint, cmp_cls_hint, cmp_types]
  | .any =>
    left
    simp [cmp_type_hint]
  | .tvar tid cs bound =>
    match bound with
    | some b =>
      left
      simp [cmp_type_hint, cmp_cls_hint, cmp_hint_cls, cmp_types]
    | none =>
      by_cases hcs : cs ≠ []
      · have hred : cmp_type_hint issub obj (.tvar tid cs none) (.tvar tid cs none) =
            similar (cs.map (fun c =>
              (similar (cs.map (fun c2 => cmp_types issub c2 c))).map (fun i => -i))) := by
          simp only [cmp_type_hint, cmp_cls_hint, cmp_hint_cls, if_pos hcs]
        rw [hred]
        rcases hsim : similar (cs.map (fun c =>
            (similar (cs.map (fun c2 => cmp_types issub c2 c))).map (fun i => -i))) with _ | v
        · right
          rfl
        · left
          rw [tvar_self_similar hanti cs v hsim]
      · push_neg at hcs
        subst hcs
        left
        simp [cmp_type_hint, cmp_cls_hint, cmp_hint_cls, cmp_types]

theorem cmp_key_self {issub : C → C → Bool}
    (hanti : ∀ a b, issub a b = true → issub b a = true → a = b)
    (obj : C) (t : List (Hint C)) : cmp_key issub obj t t = 0 := by
  rw [cmp_key]
  induction t with
  | nil => rfl
  | cons h t2 ih =>
    show cmp_key_go issub obj 0 ((h, h) :: t2.zip t2) = 0
    rw [cmp_key_go]
    rcases cmp_type_hint_self hanti obj h with h0 | h0
    · rw [h0]
      simp only [if_pos rfl]
      exact ih
    · rw [h0]

/-- **C4**: registering a candidate whose constraint tuple and priority
both equal those of an already-registered candidate of the same arity
fails with an error and leaves the registry unchanged: `TopologicalSet.add`
aborts before any mutation, returning `False` with the set as it was, and
`_add_candidate` raises.  The stored duplicate `y` must be reachable from
the root along a chain of elements strictly below the new candidate (with
element comparison antisymmetric), which is how the insertion walk finds
it; the walk then sees an equivalent element and aborts. -/
theorem c4_duplicate_add_rejected {C : Type u} [DecidableEq C]
    (issub : C → C → Bool) (obj : C)
    (hanti : ∀ a b, issub a b = true → issub b a = true → a = b)
    (s : MDState C) (c y : Cand C) (ynode : Nat) (chR : List (Option Nat))
    (hy : ((alookup s.topsets c.types.length).getD ⟨[], []⟩).inner? ynode = some y)
    (htypes : y.types = c.types) (hprio : y.priority = c.priority)
    (hch : ChainTo (candLt issub obj) c ((alookup s.topsets c.types.length).getD ⟨[], []⟩)
      (none :: chR) ynode)
    (hnd : ((none : Option Nat) :: chR).Nodup) :
    TopSet.add (candLt issub obj) (candLe issub obj) (fun cd => cd.priority)
      ((alookup s.topsets c.types.length).getD ⟨[], []⟩) c =
      (false, (alookup s.topsets c.types.length).getD ⟨[], []⟩) ∧
    MDState.addCandidate issub obj s c =
      .error "A candidate of equal types and priority exists" := by
  have hkey1 : cmp_key issub obj y.types c.types = 0 := by
    rw [htypes]
    exact cmp_key_self hanti obj c.types
  have hkey2 : cmp_key issub obj c.types y.types = 0 := by
    rw [htypes]
    exact cmp_key_self hanti obj c.types
  have hyx : candLt issub obj y c = false := by
    simp [candLt, hkey1]
  have hxy : candLt issub obj c y = false := by
    simp [candLt, hkey2]
  have hle : candLe issub obj c y = true := by
    simp [candLe, candLt, hkey2, htypes, hprio]
  have hwalk := walkGo_none_of_chain hy hyx hxy hle
    (TopSet.walkFuel ((alookup s.topsets c.types.length).getD ⟨[], []⟩))
    [none] [] [] [] none chR hch hnd (List.mem_cons_self _ _) trivial
    (fun e _ hmem => absurd hmem (List.not_mem_nil e))
  have hadd : TopSet.add (candLt issub obj) (candLe issub obj) (fun cd => cd.priority)
      ((alookup s.topsets c.types.length).getD ⟨[], []⟩) c =
      (false, (alookup s.topsets c.types.length).getD ⟨[], []⟩) := by
    rw [TopSet.add, hwalk]
  refine ⟨hadd, ?_⟩
  rw [MDState.addCandidate, hadd]
  simp

theorem c4_duplicate_add_rejected_witness :
    TopSet.add (candLt ClsZ.sub ClsZ.cZ) (candLe ClsZ.sub ClsZ.cZ) (fun cd => cd.priority)
      ((alookup mdZ3.topsets 1).getD ⟨[], []⟩) ⟨9, [.cls .cZ], 0, .obj 5⟩ =
      (false, (alookup mdZ3.topsets 1).getD ⟨[], []⟩) ∧
    MDState.addCandidate ClsZ.sub ClsZ.cZ mdZ3 ⟨9, [.cls .cZ], 0, .obj 5⟩ =
      .error "A candidate of equal types and priority exists" := by
  have hch : ChainTo (candLt ClsZ.sub ClsZ.cZ) ⟨9, [.cls .cZ], 0, .obj 5⟩
      ((alookup mdZ3.topsets 1).getD ⟨[], []⟩) [none, some 0] 1 := by
    show (∃ qi v, (some 0 : Option Nat) = some qi ∧
        qi ∈ TopSet.gtIds ((alookup mdZ3.topsets 1).getD ⟨[], []⟩) none ∧
        ((alookup mdZ3.topsets 1).getD ⟨[], []⟩).inner? qi = some v ∧
        candLt ClsZ.sub ClsZ.cZ v ⟨9, [.cls .cZ], 0, .obj 5⟩ = true) ∧
      ChainTo (candLt ClsZ.sub ClsZ.cZ) ⟨9, [.cls .cZ], 0, .obj 5⟩
        ((alookup mdZ3.topsets 1).getD ⟨[], []⟩) [some 0] 1
    refine ⟨⟨0, candZa, rfl, by decide, by decide, by decide⟩, ?_⟩
    show (1 : Nat) ∈ TopSet.gtIds ((alookup mdZ3.topsets 1).getD ⟨[], []⟩) (some 0)
    decide
  exact c4_duplicate_add_rejected ClsZ.sub ClsZ.cZ (by decide) mdZ3
    ⟨9, [.cls .cZ], 0, .obj 5⟩ candZz 1 [some 0] (by decide) (by decide) (by decide)
    hch (by decide)

/-! ### `similar` as an aggregation: membership characterizations (claim C5) -/

theorem similar_entries {xs : List (Option Int)} {v : Int} (h : similar xs = some v) :
    ∀ x ∈ xs, x = some 0 ∨ x = some v := by
  intro x hx
  match x with
  | none =>
    rw [similar, similarGo_none_mem xs 0 hx] at h
    cases h
  | some w =>
    by_cases hw : w = 0
    · exact Or.inl (by rw [hw])
    · rw [similar] at h
      exact Or.inr (by rw [(similarGo_spec xs 0 v h).2 w hx hw])

theorem similar_exists_nonzero {xs : List (Option Int)} {v : Int}
    (h : similar xs = some v) (hv : v ≠ 0) : ∃ x ∈ xs, x = some v := by
  by_contra hall
  push_neg at hall
  have hz : ∀ x ∈ xs, x = some 0 := by
    intro x hx
    rcases similar_entries h x hx with h0 | h0
    · exact h0
    · exact absurd h0 (hall x hx)
  rw [similar, similarGo_all_zero xs hz] at h
  injection h with h2
  exact hv h2.symm

theorem similarGo_entries_bounded {v : Int} :
    ∀ (xs : List (Option Int)) (ret : Int), (∀ x ∈ xs, x = some 0 ∨ x = some v) →
    (ret = 0 ∨ ret = v) →
    similarGo ret xs = some 0 ∨ similarGo ret xs = some v := by
  intro xs
  induction xs with
  | nil =>
    intro ret _ hret
    rcases hret with h | h <;> rw [h]
    · exact Or.inl rfl
    · exact Or.inr rfl
  | cons o rest ih =>
    intro ret hall hret
    rcases hall o (List.mem_cons_self _ _) with h0 | h0 <;> rw [h0] <;>
      rw [similarGo] <;> by_cases hr : ret = 0
    · rw [if_pos hr]
      exact ih 0 (fun x hx => hall x (List.mem_cons_of_mem _ hx)) (Or.inl rfl)
    · rw [if_neg hr, if_pos rfl]
      exact ih ret (fun x hx => hall x (List.mem_cons_of_mem _ hx)) hret
    · rw [if_pos hr]
      exact ih v (fun x hx => hall x (List.mem_cons_of_mem _ hx)) (Or.inr rfl)
    · have hrv : ret = v := hret.resolve_left hr
      by_cases hv : v = 0
      · rw [if_neg hr, if_pos hv]
        exact ih ret (fun x hx => hall x (List.mem_cons_of_mem _ hx)) hret
      · rw [if_neg hr, if_neg hv, if_neg (by rw [hrv]; exact not_ne_iff.mpr rfl)]
        exact ih ret (fun x hx => hall x (List.mem_cons_of_mem _ hx)) hret

theorem similar_of_bounded_exists {xs : List (Option Int)} {v : Int}
    (hall : ∀ x ∈ xs, x = some 0 ∨ x = some v) (hv : v ≠ 0)
    (hex : ∃ x ∈ xs, x = some v) : similar xs = some v := by
  rcases similarGo_entries_bounded xs 0 hall (Or.inl rfl) with h | h
  · exfalso
    obtain ⟨x, hx, hxv⟩ := hex
    rcases similar_entries h x hx with h0 | h0
    · rw [hxv] at h0
      injection h0 with h2
      exact hv h2
    · rw [hxv] at h0
      injection h0 with h2
      exact hv h2
  · exact h

theorem similar_all_zero {xs : List (Option Int)}
    (hall : ∀ x ∈ xs, x = some 0) : similar xs = some 0 :=
  similarGo_all_zero xs hall

/-- Aggregating a matrix of comparison values with `similar` row-first or
column-first gives the same defined answer. -/
theorem similar_transpose {α : Type u} {β : Type v} {f : α → β → Option Int}
    {cs1 : List α} {cs2 : List β} {v : Int}
    (h : similar (cs1.map (fun c => similar (cs2.map (fun d => f c d)))) = some v) :
    similar (cs2.map (fun d => similar (cs1.map (fun c => f c d)))) = some v := by
  by_cases hv : v = 0
  · subst hv
    have hcell : ∀ c ∈ cs1, ∀ d ∈ cs2, f c d = some 0 := by
      intro c hc d hd
      have hrow := similar_entries h _ (List.mem_map.mpr ⟨c, hc, rfl⟩)
      have hrow0 : similar (cs2.map (fun d => f c d)) = some 0 := by
        rcases hrow with h0 | h0 <;> exact h0
      rcases similar_entries hrow0 _ (List.mem_map.mpr ⟨d, hd, rfl⟩) with h0 | h0 <;> exact h0
    apply similar_all_zero
    intro x hx
    obtain ⟨d, hd, rfl⟩ := List.mem_map.mp hx
    apply similar_all_zero
    intro y hy
    obtain ⟨c, hc, rfl⟩ := List.mem_map.mp hy
    exact hcell c hc d hd
  · have hcell : ∀ c ∈ cs1, ∀ d ∈ cs2, f c d = some 0 ∨ f c d = some v := by
      intro c hc d hd
      rcases similar_entries h _ (List.mem_map.mpr ⟨c, hc, rfl⟩) with h0 | h0
      · rcases similar_entries h0 _ (List.mem_map.mpr ⟨d, hd, rfl⟩) with hq | hq
        · exact Or.inl hq
        · exact Or.inl hq
      · exact similar_entries h0 _ (List.mem_map.mpr ⟨d, hd, rfl⟩)
    have hex : ∃ c ∈ cs1, ∃ d ∈ cs2, f c d = some v := by
      obtain ⟨x, hx, hxv⟩ := similar_exists_nonzero h hv
      obtain ⟨c, hc, rfl⟩ := List.mem_map.mp hx
      obtain ⟨y, hy, hyv⟩ := similar_exists_nonzero hxv hv
      obtain ⟨d, hd, rfl⟩ := List.mem_map.mp hy
      exact ⟨c, hc, d, hd, hyv⟩
    have hcols : ∀ x ∈ cs2.map (fun d => similar (cs1.map (fun c => f c d))),
        x = some 0 ∨ x = some v := by
      intro x hx
      obtain ⟨d, hd, rfl⟩ := List.mem_map.mp hx
      exact similarGo_entries_bounded _ 0
        (fun y hy => by
          obtain ⟨c, hc, rfl⟩ := List.mem_map.mp hy
          exact hcell c hc d hd)
        (Or.inl rfl)
    apply similar_of_bounded_exists hcols hv
    obtain ⟨c, hc, d, hd, hcd⟩ := hex
    refine ⟨similar (cs1.map (fun c2 => f c2 d)), List.mem_map.mpr ⟨d, hd, rfl⟩, ?_⟩
    apply similar_of_bounded_exists
    · intro y hy
      obtain ⟨c2, hc2, rfl⟩ := List.mem_map.mp hy
      exact hcell c2 hc2 d hd
    · exact hv
    · exact ⟨f c d, List.mem_map.mpr ⟨c, hc, rfl⟩, hcd⟩

theorem map_congr_fn {α : Type u} {β : Type v} {f g : α → β} :
    ∀ l : List α, (∀ a ∈ l, f a = g a) → l.map f = l.map g := by
  intro l
  induction l with
  | nil =>
    intro _
    rfl
  | cons a rest ih =>
    intro h
    simp only [List.map_cons]
    rw [h a (List.mem_cons_self _ _), ih (fun a2 ha2 => h a2 (List.mem_cons_of_mem _ ha2))]

theorem similarGo_neg :
    ∀ (xs : List (Option Int)) (ret : Int),
    similarGo (-ret) (xs.map negO) = negO (similarGo ret xs) := by
  intro xs
  induction xs with
  | nil =>
    intro ret
    rfl
  | cons o rest ih =>
    intro ret
    match o with
    | none => rfl
    | some i =>
      show similarGo (-ret) (some (-i) :: rest.map negO) = negO (similarGo ret (some i :: rest))
      rw [similarGo, similarGo]
      by_cases h0 : ret = 0
      · rw [if_pos (by omega), if_pos h0]
        exact ih i
      · rw [if_neg (by omega), if_neg h0]
        by_cases hi : i = 0
        · rw [if_pos (by omega), if_pos hi]
          exact ih ret
        · rw [if_neg (by omega), if_neg hi]
          by_cases hri : ret ≠ i
          · rw [if_pos (by omega), if_pos hri]
            rfl
          · rw [if_neg (by omega), if_neg hri]
            exact ih ret

theorem similar_neg (xs : List (Option Int)) :
    similar (xs.map negO) = negO (similar xs) := by
  have := similarGo_neg xs 0
  rw [neg_zero] at this
  exact this

theorem similar_const {α : Type u} (cs : List α) (v : Int) (hne : cs ≠ []) :
    similar (cs.map (fun _ => some v)) = some v := by
  by_cases hv : v = 0
  · subst hv
    exact similar_all_zero (fun x hx => by
      obtain ⟨c, _, rfl⟩ := List.mem_map.mp hx
      rfl)
  · apply similar_of_bounded_exists
    · intro x hx
      obtain ⟨c, _, rfl⟩ := List.mem_map.mp hx
      exact Or.inr rfl
    · exact hv
    · match cs with
      | [] => exact absurd rfl hne
      | c :: rest => exact ⟨some v, List.mem_map.mpr ⟨c, List.mem_cons_self _ _, rfl⟩, rfl⟩

theorem cmp_types_antisymm_full {issub : C → C → Bool}
    (hanti : ∀ a b, issub a b = true → issub b a = true → a = b) (r l : C) :
    cmp_types issub l r = negO (cmp_types issub r l) := by
  unfold cmp_types
  by_cases he : r = l
  · rw [if_pos he, if_pos he.symm]
    rfl
  · rw [if_neg he, if_neg (fun h => he h.symm)]
    by_cases h1 : issub r l = true
    · have h2 : issub l r = false := by
        cases hq : issub l r
        · rfl
        · exact absurd (hanti r l h1 hq) he
      rw [if_pos h1, if_neg (by simp [h2]), if_pos h1]
      rfl
    · rw [if_neg h1]
      by_cases h2 : issub l r = true
      · rw [if_pos h2, if_neg h1, if_pos h2]
        rfl
      · rw [if_neg h2, if_neg h1, if_neg h2]
        rfl

theorem similar_transpose_eq {α : Type u} {β : Type v} (f : α → β → Option Int)
    (cs1 : List α) (cs2 : List β) :
    similar (cs1.map (fun c => similar (cs2.map (fun d => f c d)))) =
    similar (cs2.map (fun d => similar (cs1.map (fun c => f c d)))) := by
  rcases h1 : similar (cs1.map (fun c => similar (cs2.map (fun d => f c d)))) with _ | v
  · rcases h2 : similar (cs2.map (fun d => similar (cs1.map (fun c => f c d)))) with _ | w
    · rfl
    · have := similar_transpose (f := fun (d : β) (c : α) => f c d) h2
      rw [h1] at this
      cases this
  · rw [similar_transpose h1]

theorem cmp_cls_hint_antisymm {issub : C → C → Bool}
    (hanti : ∀ a b, issub a b = true → issub b a = true → a = b)
    (obj : C) (c : C) (h : Hint C) :
    cmp_cls_hint issub obj c h = negO (cmp_hint_cls issub obj h c) := by
  match h with
  | .cls lc => exact cmp_types_antisymm_full hanti lc c
  | .any => rfl
  | .tvar tid cs bound => rfl

theorem cmp_hint_cls_as_cls {issub : C → C → Bool} (obj : C) :
    ∀ (h : Hint C) (c : C),
    cmp_hint_cls issub obj h c = cmp_type_hint issub obj h (.cls c) := by
  intro h c
  match h with
  | .cls hc => rfl
  | .any => rfl
  | .tvar tid cs bound =>
    match bound with
    | some b => rfl
    | none => rfl

theorem cmp_hint_cls_as_bound {issub : C → C → Bool}
    (hanti : ∀ a b, issub a b = true → issub b a = true → a = b) (obj : C) :
    ∀ (h : Hint C) (tid : Nat) (cs2 : List C) (b : C),
    cmp_type_hint issub obj h (.tvar tid cs2 (some b)) = cmp_hint_cls issub obj h b := by
  intro h tid cs2 b
  match h with
  | .cls rc =>
    show negO (cmp_types issub b rc) = cmp_types issub rc b
    exact (cmp_types_antisymm_full hanti b rc).symm
  | .any => rfl
  | .tvar tid2 cs bound =>
    match bound with
    | some bb =>
      show negO (cmp_types issub b bb) = cmp_types issub bb b
      exact (cmp_types_antisymm_full hanti b bb).symm
    | none =>
      by_cases hcs : cs ≠ []
      · show (if cs ≠ [] then _ else _) = (if cs ≠ [] then _ else _)
        rw [if_pos hcs, if_pos hcs]
        apply congrArg
        apply map_congr_fn
        intro c _
        show negO (cmp_types issub b c) = cmp_types issub c b
        exact (cmp_types_antisymm_full hanti b c).symm
      · show (if cs ≠ [] then _ else _) = (if cs ≠ [] then _ else _)
        rw [if_neg hcs, if_neg hcs]
        show negO (cmp_types issub b obj) = cmp_types issub obj b
        exact (cmp_types_antisymm_full hanti b obj).symm

theorem cmp_type_hint_vs_any {issub : C → C → Bool} (obj : C) :
    ∀ h : Hint C, h ≠ .any → cmp_type_hint issub obj h .any = some (-1) := by
  intro h hne
  match h with
  | .cls rc => rfl
  | .any => exact absurd rfl hne
  | .tvar tid cs bound =>
    match bound with
    | some b => rfl
    | none =>
      by_cases hcs : cs ≠ []
      · show (if cs ≠ [] then similar (cs.map (fun c => cmp_cls_hint issub obj c .any))
            else cmp_cls_hint issub obj obj .any) = some (-1)
        rw [if_pos hcs]
        rw [map_congr_fn cs (fun c _ => (rfl :
          cmp_cls_hint issub obj c .any = some (-1)))]
        exact similar_const cs (-1) hcs
      · show (if cs ≠ [] then similar (cs.map (fun c => cmp_cls_hint issub obj c .any))
            else cmp_cls_hint issub obj obj .any) = some (-1)
        rw [if_neg hcs]
        rfl

theorem cmp_hint_constraints {issub : C → C → Bool}
    (hanti : ∀ a b, issub a b = true → issub b a = true → a = b) (obj : C) :
    ∀ (h : Hint C) (tid : Nat) (cs : List C), cs ≠ [] →
    cmp_type_hint issub obj h (.tvar tid cs none) =
      similar (cs.map (fun c => cmp_hint_cls issub obj h c)) := by
  intro h tid cs hcs
  match h with
  | .cls rb =>
    show (cmp_hint_cls issub obj (.tvar tid cs none) rb).map (fun i => -i) = _
    show negO (if cs ≠ [] then similar (cs.map (fun c => cmp_types issub c rb))
        else cmp_types issub obj rb) = _
    rw [if_pos hcs, ← similar_neg, List.map_map]
    apply congrArg
    apply map_congr_fn
    intro c _
    show negO (cmp_types issub c rb) = cmp_types issub rb c
    exact (cmp_types_antisymm_full hanti c rb).symm
  | .any =>
    show some 1 = _
    rw [map_congr_fn cs (fun c _ => (rfl :
      cmp_hint_cls issub obj Hint.any c = some 1))]
    exact (similar_const cs 1 hcs).symm
  | .tvar tid2 cs2 bound =>
    match bound with
    | some bb =>
      show (cmp_hint_cls issub obj (.tvar tid cs none) bb).map (fun i => -i) = _
      show negO (if cs ≠ [] then similar (cs.map (fun c => cmp_types issub c bb))
          else cmp_types issub obj bb) = _
      rw [if_pos hcs, ← similar_neg, List.map_map]
      apply congrArg
      apply map_congr_fn
      intro c _
      show negO (cmp_types issub c bb) = cmp_types issub bb c
      exact (cmp_types_antisymm_full hanti c bb).symm
    | none =>
      by_cases hcs2 : cs2 ≠ []
      · show (if cs2 ≠ [] then
            similar (cs2.map (fun c2 => cmp_cls_hint issub obj c2 (.tvar tid cs none)))
          else cmp_cls_hint issub obj obj (.tvar tid cs none)) = _
        rw [if_pos hcs2]
        have hinner : ∀ c2 : C, cmp_cls_hint issub obj c2 (.tvar tid cs none) =
            similar (cs.map (fun c => cmp_types issub c2 c)) := by
          intro c2
          show negO (if cs ≠ [] then similar (cs.map (fun c => cmp_types issub c c2))
              else cmp_types issub obj c2) = _
          rw [if_pos hcs, ← similar_neg, List.map_map]
          apply congrArg
          apply map_congr_fn
          intro c _
          show negO (cmp_types issub c c2) = cmp_types issub c2 c
          exact (cmp_types_antisymm_full hanti c c2).symm
        rw [map_congr_fn cs2 (fun c2 _ => hinner c2)]
        have houter : ∀ c : C, cmp_hint_cls issub obj (.tvar tid2 cs2 none) c =
            similar (cs2.map (fun c2 => cmp_types issub c2 c)) := by
          intro c
          show (if cs2 ≠ [] then similar (cs2.map (fun c2 => cmp_types issub c2 c))
              else cmp_types issub obj c) = _
          rw [if_pos hcs2]
        rw [map_congr_fn cs (fun c _ => houter c)]
        exact similar_transpose_eq (fun c2 c => cmp_types issub c2 c) cs2 cs
      · show (if cs2 ≠ [] then
            similar (cs2.map (fun c2 => cmp_cls_hint issub obj c2 (.tvar tid cs none)))
          else cmp_cls_hint issub obj obj (.tvar tid cs none)) = _
        rw [if_neg hcs2]
        show negO (if cs ≠ [] then similar (cs.map (fun c => cmp_types issub c obj))
            else cmp_types issub obj obj) = _
        rw [if_pos hcs, ← similar_neg, List.map_map]
        have houter : ∀ c : C, cmp_hint_cls issub obj (.tvar tid2 cs2 none) c =
            cmp_types issub obj c := by
          intro c
          show (if cs2 ≠ [] then similar (cs2.map (fun c2 => cmp_types issub c2 c))
              else cmp_types issub obj c) = _
          rw [if_neg hcs2]
        rw [map_congr_fn cs (fun c _ => houter c)]
        apply congrArg
        apply map_congr_fn
        intro c _
        show negO (cmp_types issub c obj) = cmp_types issub obj c
        exact (cmp_types_antisymm_full hanti c obj).symm

theorem cmp_hint_cls_as_empty {issub : C → C → Bool}
    (hanti : ∀ a b, issub a b = true → issub b a = true → a = b) (obj : C) :
    ∀ (h : Hint C) (tid : Nat),
    cmp_type_hint issub obj h (.tvar tid [] none) = cmp_hint_cls issub obj h obj := by
  intro h tid
  match h with
  | .cls rc =>
    show negO (cmp_types issub obj rc) = cmp_types issub rc obj
    exact (cmp_types_antisymm_full hanti obj rc).symm
  | .any => rfl
  | .tvar tid2 cs2 bound =>
    match bound with
    | some bb =>
      show negO (cmp_types issub obj bb) = cmp_types issub bb obj
      exact (cmp_types_antisymm_full hanti obj bb).symm
    | none =>
      by_cases hcs2 : cs2 ≠ []
      · show (if cs2 ≠ [] then
            similar (cs2.map (fun c2 => cmp_cls_hint issub obj c2 (.tvar tid [] none)))
          else cmp_cls_hint issub obj obj (.tvar tid [] none)) =
          (if cs2 ≠ [] then similar (cs2.map (fun c2 => cmp_types issub c2 obj))
          else cmp_types issub obj obj)
        rw [if_pos hcs2, if_pos hcs2]
        apply congrArg
        apply map_congr_fn
        intro c2 _
        show negO (cmp_types issub obj c2) = cmp_types issub c2 obj
        exact (cmp_types_antisymm_full hanti obj c2).symm
      · show (if cs2 ≠ [] then
            similar (cs2.map (fun c2 => cmp_cls_hint issub obj c2 (.tvar tid [] none)))
          else cmp_cls_hint issub obj obj (.tvar tid [] none)) =
          (if cs2 ≠ [] then similar (cs2.map (fun c2 => cmp_types issub c2 obj))
          else cmp_types issub obj obj)
        rw [if_neg hcs2, if_neg hcs2]
        show negO (cmp_types issub obj obj) = cmp_types issub obj obj
        rw [cmp_types_self]
        decide

theorem cmp_type_hint_antisymm {issub : C → C → Bool}
    (hanti : ∀ a b, issub a b = true → issub b a = true → a = b) (obj : C) :
    ∀ a b : Hint C,
    cmp_type_hint issub obj a b = negO (cmp_type_hint issub obj b a) := by
  intro a b
  match a with
  | .cls ra =>
    show cmp_cls_hint issub obj ra b = _
    rw [cmp_cls_hint_antisymm hanti obj ra b, cmp_hint_cls_as_cls obj b ra]
  | .any =>
    by_cases hb : b = .any
    · subst hb
      rfl
    · show some (if b = .any then 0 else 1) = _
      rw [if_neg hb, cmp_type_hint_vs_any obj b hb]
      rfl
  | .tvar tid cs bound =>
    match bound with
    | some ba =>
      show cmp_cls_hint issub obj ba b = _
      rw [cmp_cls_hint_antisymm hanti obj ba b, cmp_hint_cls_as_bound hanti obj b tid cs ba]
    | none =>
      by_cases hcs : cs ≠ []
      · show (if cs ≠ [] then similar (cs.map (fun c => cmp_cls_hint issub obj c b))
            else cmp_cls_hint issub obj obj b) = _
        rw [if_pos hcs]
        rw [map_congr_fn cs (fun c _ => cmp_cls_hint_antisymm hanti obj c b)]
        rw [show (cs.map (fun c => negO (cmp_hint_cls issub obj b c))) =
            (cs.map (fun c => cmp_hint_cls issub obj b c)).map negO from
          (List.map_map negO (fun c => cmp_hint_cls issub obj b c) cs).symm]
        rw [similar_neg, cmp_hint_constraints hanti obj b tid cs hcs]
      · show (if cs ≠ [] then similar (cs.map (fun c => cmp_cls_hint issub obj c b))
            else cmp_cls_hint issub obj obj b) = _
        rw [if_neg hcs]
        have hnil : cs = [] := not_ne_iff.mp hcs
        subst hnil
        rw [cmp_cls_hint_antisymm hanti obj obj b, cmp_hint_cls_as_empty hanti obj b tid]

theorem cmp_key_go_spec {issub : C → C → Bool} {obj : C} :
    ∀ (ps : List (Hint C × Hint C)) (ret v : Int),
    cmp_key_go issub obj ret ps = v → v ≠ 0 →
    (ret = 0 ∨ v = ret) ∧ ∀ p ∈ ps, cmp_type_hint issub obj p.1 p.2 = some 0 ∨
      cmp_type_hint issub obj p.1 p.2 = some v := by
  intro ps
  induction ps with
  | nil =>
    intro ret v h _
    exact ⟨Or.inr h.symm, fun p hp => absurd hp (List.not_mem_nil p)⟩
  | cons q rest ih =>
    intro ret v h hv
    obtain ⟨r, l⟩ := q
    rw [cmp_key_go] at h
    rcases hct : cmp_type_hint issub obj r l with _ | i
    · simp only [hct] at h
      exact absurd h.symm hv
    · simp only [hct] at h
      by_cases hi : i = 0
      · rw [if_pos hi] at h
        have hr := ih ret v h hv
        refine ⟨hr.1, ?_⟩
        intro p hp
        rcases List.mem_cons.mp hp with hh | hh
        · rw [hh]
          exact Or.inl (by rw [hct, hi])
        · exact hr.2 p hh
      · rw [if_neg hi] at h
        by_cases h0 : ret = 0
        · rw [if_pos h0] at h
          have hr := ih i v h hv
          have hvi : v = i := hr.1.resolve_left hi
          refine ⟨Or.inl h0, ?_⟩
          intro p hp
          rcases List.mem_cons.mp hp with hh | hh
          · rw [hh]
            exact Or.inr (by rw [hct, hvi])
          · exact hr.2 p hh
        · rw [if_neg h0] at h
          by_cases hri : ret ≠ i
          · rw [if_pos hri] at h
            exact absurd h.symm hv
          · rw [if_neg hri] at h
            have heq : ret = i := not_ne_iff.mp hri
            have hr := ih ret v h hv
            have hvr : v = ret := hr.1.resolve_left h0
            refine ⟨Or.inr hvr, ?_⟩
            intro p hp
            rcases List.mem_cons.mp hp with hh | hh
            · rw [hh]
              exact Or.inr (by rw [hct, hvr, heq])
            · exact hr.2 p hh

theorem cmp_key_go_all_zero {issub : C → C → Bool} {obj : C} :
    ∀ (ps : List (Hint C × Hint C)) (ret : Int),
    (∀ p ∈ ps, cmp_type_hint issub obj p.1 p.2 = some 0) →
    cmp_key_go issub obj ret ps = ret := by
  intro ps
  induction ps with
  | nil =>
    intro ret _
    rfl
  | cons q rest ih =>
    intro ret hall
    obtain ⟨r, l⟩ := q
    have := ih ret (fun p hp => hall p (List.mem_cons_of_mem _ hp))
    simpa [cmp_key_go, hall (r, l) (List.mem_cons_self _ _)] using this

theorem cmp_key_go_ret {issub : C → C → Bool} {obj : C} {v : Int} (hv : v ≠ 0) :
    ∀ ps : List (Hint C × Hint C),
    (∀ p ∈ ps, cmp_type_hint issub obj p.1 p.2 = some 0 ∨
      cmp_type_hint issub obj p.1 p.2 = some v) →
    cmp_key_go issub obj v ps = v := by
  intro ps
  induction ps with
  | nil =>
    intro _
    rfl
  | cons q rest ih =>
    intro hall
    obtain ⟨r, l⟩ := q
    have htail := fun p hp => hall p (List.mem_cons_of_mem _ hp)
    rcases hall (r, l) (List.mem_cons_self _ _) with hh | hh
    · simpa [cmp_key_go, hh] using ih htail
    · simpa [cmp_key_go, hh, hv] using ih htail

theorem cmp_key_go_build {issub : C → C → Bool} {obj : C} {v : Int} (hv : v ≠ 0) :
    ∀ ps : List (Hint C × Hint C),
    (∀ p ∈ ps, cmp_type_hint issub obj p.1 p.2 = some 0 ∨
      cmp_type_hint issub obj p.1 p.2 = some v) →
    (∃ p ∈ ps, cmp_type_hint issub obj p.1 p.2 = some v) →
    cmp_key_go issub obj 0 ps = v := by
  intro ps
  induction ps with
  | nil =>
    intro _ hex
    obtain ⟨p, hp, _⟩ := hex
    exact absurd hp (List.not_mem_nil p)
  | cons q rest ih =>
    intro hall hex
    obtain ⟨r, l⟩ := q
    have htail := fun p hp => hall p (List.mem_cons_of_mem _ hp)
    rcases hall (r, l) (List.mem_cons_self _ _) with hh | hh
    · have hex2 : ∃ p ∈ rest, cmp_type_hint issub obj p.1 p.2 = some v := by
        obtain ⟨p, hp, hpv⟩ := hex
        rcases List.mem_cons.mp hp with hq | hq
        · rw [hq, hh] at hpv
          injection hpv with h2
          exact absurd h2.symm hv
        · exact ⟨p, hq, hpv⟩
      simpa [cmp_key_go, hh] using ih htail hex2
    · simpa [cmp_key_go, hh, hv] using cmp_key_go_ret hv rest htail

theorem cmp_key_go_neg {issub : C → C → Bool}
    (hanti : ∀ a b, issub a b = true → issub b a = true → a = b) (obj : C) :
    ∀ (ps : List (Hint C × Hint C)) (ret : Int),
    cmp_key_go issub obj (-ret) (ps.map Prod.swap) = - cmp_key_go issub obj ret ps := by
  intro ps
  induction ps with
  | nil =>
    intro ret
    rfl
  | cons q rest ih =>
    intro ret
    obtain ⟨r, l⟩ := q
    have hsw : cmp_type_hint issub obj l r = negO (cmp_type_hint issub obj r l) :=
      cmp_type_hint_antisymm hanti obj l r
    rcases hct : cmp_type_hint issub obj r l with _ | i
    · rw [hct] at hsw
      show cmp_key_go issub obj (-ret) ((l, r) :: rest.map Prod.swap) = _
      simp only [cmp_key_go, hct, hsw, negO, Option.map_none']
      decide
    · rw [hct] at hsw
      show cmp_key_go issub obj (-ret) ((l, r) :: rest.map Prod.swap) = _
      simp only [cmp_key_go, hct, hsw, negO, Option.map_some']
      by_cases hi : i = 0
      · rw [if_pos hi, if_pos (by omega)]
        exact ih ret
      · rw [if_neg hi, if_neg (by omega : ¬ -i = 0)]
        by_cases h0 : ret = 0
        · rw [if_pos h0, if_pos (by omega)]
          exact ih i
        · rw [if_neg h0, if_neg (by omega : ¬ -ret = 0)]
          by_cases hri : ret ≠ i
          · rw [if_pos hri, if_pos (by omega : -ret ≠ -i)]
            decide
          · rw [if_neg hri, if_neg (by omega : ¬ -ret ≠ -i)]
            exact ih ret

theorem zip_swap_own {α : Type u} {β : Type v} :
    ∀ (l1 : List α) (l2 : List β), l1.zip l2 = (l2.zip l1).map Prod.swap := by
  intro l1
  induction l1 with
  | nil =>
    intro l2
    cases l2 <;> rfl
  | cons a r1 ih =>
    intro l2
    cases l2 with
    | nil => rfl
    | cons b r2 =>
      show (a, b) :: r1.zip r2 = ((b, a) :: r2.zip r1).map Prod.swap
      rw [List.map_cons, ih r2]
      rfl

/-- **C5** (counterexample): over the diamond `q ⊂ b1`, `q ⊂ b2` with `b1`,
`b2` unrelated, take `A = (q, b1)` and `B = (b1, b2)`.  Position-wise, no
position of `B` is more specific than `A`'s (`b1 ⊃ q` at position 1 and
`b2` is unrelated to `b1` at position 2) and `A`'s first position is
strictly more specific, so the claim says `A` supersedes `B`.  But
`cmp_key` returns `0` the moment any position is incomparable, so the
candidates are unordered and `A` does not supersede `B`. -/
theorem c5_counterexample_incomparable_position :
    cmp_type_hint ClsD.sub ClsD.b1 (.cls .q) (.cls .b1) = some (-1) ∧
    cmp_type_hint ClsD.sub ClsD.b1 (.cls .b1) (.cls .q) = some 1 ∧
    cmp_type_hint ClsD.sub ClsD.b1 (.cls .b1) (.cls .b2) = none ∧
    cmp_type_hint ClsD.sub ClsD.b1 (.cls .b2) (.cls .b1) = none ∧
    cmp_key ClsD.sub ClsD.b1 [.cls .q, .cls .b1] [.cls .b1, .cls .b2] = 0 ∧
    candLt ClsD.sub ClsD.b1 ⟨0, [.cls .q, .cls .b1], 0, .notImplemented⟩
      ⟨1, [.cls .b1, .cls .b2], 0, .notImplemented⟩ = false := by
  refine ⟨by decide, by decide, by decide, by decide, by decide, by decide⟩

/-- **C5** (amended): `cmp_key rhs lhs = -1` exactly when every position
comparison is `0` or `-1` — in particular no position is incomparable —
and at least one is `-1`; a single incomparable position forces the
result `0` no matter how the remaining positions point.  Moreover, when
the subclass relation is antisymmetric the comparison is antisymmetric:
swapping the key arguments negates the result. -/
theorem c5_amended_cmp_key {C : Type u} [DecidableEq C] (issub : C → C → Bool) (obj : C)
    (hanti : ∀ a b, issub a b = true → issub b a = true → a = b)
    (rhs lhs : List (Hint C)) :
    (cmp_key issub obj rhs lhs = -1 ↔
      ((∀ p ∈ rhs.zip lhs, cmp_type_hint issub obj p.1 p.2 = some 0 ∨
          cmp_type_hint issub obj p.1 p.2 = some (-1)) ∧
        ∃ p ∈ rhs.zip lhs, cmp_type_hint issub obj p.1 p.2 = some (-1))) ∧
    cmp_key issub obj lhs rhs = - cmp_key issub obj rhs lhs := by
  constructor
  · constructor
    · intro h
      rw [cmp_key] at h
      have hs := cmp_key_go_spec (rhs.zip lhs) 0 (-1) h (by decide)
      refine ⟨hs.2, ?_⟩
      by_contra hne
      push_neg at hne
      have hz : ∀ p ∈ rhs.zip lhs, cmp_type_hint issub obj p.1 p.2 = some 0 := by
        intro p hp
        rcases hs.2 p hp with h0 | h0
        · exact h0
        · exact absurd h0 (hne p hp)
      rw [cmp_key_go_all_zero (rhs.zip lhs) 0 hz] at h
      cases h
    · intro h
      rw [cmp_key]
      exact cmp_key_go_build (by decide) (rhs.zip lhs) h.1 h.2
  · rw [cmp_key, cmp_key, zip_swap_own lhs rhs]
    have := cmp_key_go_neg hanti obj (rhs.zip lhs) 0
    rw [neg_zero] at this
    exact this

theorem c5_amended_cmp_key_witness :
    (cmp_key ClsD.sub ClsD.b1 [.cls .q, .cls .b1] [.cls .b1, .cls .b1] = -1 ↔
      ((∀ p ∈ List.zip [Hint.cls ClsD.q, Hint.cls ClsD.b1]
          [Hint.cls ClsD.b1, Hint.cls ClsD.b1],
          cmp_type_hint ClsD.sub ClsD.b1 p.1 p.2 = some 0 ∨
          cmp_type_hint ClsD.sub ClsD.b1 p.1 p.2 = some (-1)) ∧
        ∃ p ∈ List.zip [Hint.cls ClsD.q, Hint.cls ClsD.b1]
          [Hint.cls ClsD.b1, Hint.cls ClsD.b1],
          cmp_type_hint ClsD.sub ClsD.b1 p.1 p.2 = some (-1))) ∧
    cmp_key ClsD.sub ClsD.b1 [.cls .b1, .cls .b1] [.cls .q, .cls .b1] =
      - cmp_key ClsD.sub ClsD.b1 [.cls .q, .cls .b1] [.cls .b1, .cls .b1] :=
  c5_amended_cmp_key ClsD.sub ClsD.b1 (by decide)
    [.cls .q, .cls .b1] [.cls .b1, .cls .b1]
